import Mathlib

/-!
A verification development for `source/speechXml.py` (NVDA speech-to-XML codec).

The Python module converts linear NVDA speech sequences to SSML-like markup
(`XmlBalancer`, `SpeechXmlConverter`, `SsmlConverter`) and back
(`SpeechXmlParser`, `SsmlParser`).  This file gives a shallow embedding of that
code and proves properties about it.

Modelling conventions:
* Python `OrderedDict` values are modelled as association lists
  (`List (String × String)`), preserving insertion order; assigning to an
  existing key keeps its position, a new key is appended at the end.
* Python `float` values (prosody multipliers) are modelled as exact rationals.
* Python `int` values that are nonnegative in all uses (break times in
  milliseconds, mark indexes) are modelled as `Nat`.
* The emitted markup is modelled both as a list of tokens (one token per
  open/close/self-closing tag or text fragment, exactly the granularity at
  which the Python code appends to `self._out`) and as the joined string.
-/

namespace SpeechXml

attribute [local semireducible] Rat.add Rat.mul Rat.inv Rat.sub

/-! ## Ordered association lists (model of Python `OrderedDict`) -/

/-- Ordered-map lookup (`d.get(k)`). -/
def alookup {α : Type} (l : List (String × α)) (k : String) : Option α :=
  match l with
  | [] => none
  | (k', v) :: t => if k' = k then some v else alookup t k

/-- Ordered-map assignment (`d[k] = v`): update in place if the key exists
(keeping its position, as `OrderedDict` does), otherwise append at the end. -/
def aset {α : Type} (l : List (String × α)) (k : String) (v : α) :
    List (String × α) :=
  match l with
  | [] => [(k, v)]
  | (k', v') :: t => if k' = k then (k, v) :: t else (k', v') :: aset t k v

/-- Ordered-map deletion (`del d[k]`): removes the first (only) binding. -/
def adel {α : Type} (l : List (String × α)) (k : String) :
    List (String × α) :=
  match l with
  | [] => []
  | (k', v') :: t => if k' = k then t else (k', v') :: adel t k

/-! ## Decimal rendering and parsing (model of `"%d"` and of `int(...)`) -/

/-- One decimal digit character. -/
def digitChar (n : ℕ) : Char := Char.ofNat (48 + n % 10)

/-- Worker for decimal rendering, structurally recursive on a fuel argument
so that it evaluates by kernel reduction; `natChars` supplies enough fuel. -/
def natCharsAux : ℕ → ℕ → List Char → List Char
  | 0, _, acc => acc
  | fuel + 1, n, acc =>
    if n < 10 then digitChar n :: acc
    else natCharsAux fuel (n / 10) (digitChar (n % 10) :: acc)

/-- Decimal digits of a natural number, most significant first
(model of Python `"%d" % n` for `n ≥ 0`). -/
def natChars (n : ℕ) : List Char := natCharsAux (n + 1) n []

/-- Decimal rendering of a natural number. -/
def natToStr (n : ℕ) : String := ⟨natChars n⟩

/-- Decimal rendering of an integer (model of Python `"%d" % n`). -/
def intToStr (n : ℤ) : String :=
  if n < 0 then ⟨'-' :: natChars n.natAbs⟩ else ⟨natChars n.natAbs⟩

/-- Value of a decimal digit character. -/
def digitVal (c : Char) : ℕ := c.toNat - 48

/-- Value of a nonempty list of decimal digits (model of Python `int(...)`
applied to a digit string already vetted by a regular expression). -/
def digitsVal (l : List Char) : ℕ := l.foldl (fun acc c => 10 * acc + digitVal c) 0

/-! ## XML escaping (`_escapeXml`) -/

/-- Characters invalid in XML, from `_buildInvalidXmlRegexp`.  The two
surrogate branches of the Python regular expression are unrepresentable here:
Lean `Char` only holds Unicode scalar values, which exclude surrogates. -/
def isInvalidXmlChar (c : Char) : Bool :=
  let n := c.toNat
  (n ≤ 0x08) || (0x0B ≤ n && n ≤ 0x0C) || (0x0E ≤ n && n ≤ 0x1F) ||
  (0x7F ≤ n && n ≤ 0x84) || (0x86 ≤ n && n ≤ 0x9F) ||
  (0xFDD0 ≤ n && n ≤ 0xFDDF) || (0xFFFE ≤ n && n ≤ 0xFFFF)

/-- `textUtils.REPLACEMENT_CHAR`. -/
def replacementChar : Char := '�'

/-- Escape one character: the four reserved characters become entities
(`str.translate` with `XML_ESCAPES`), invalid characters become the
replacement character (`RE_INVALID_XML_CHARS.sub`); the two passes of the
Python code commute, so a single character-wise pass is equivalent. -/
def escapeChar (c : Char) : List Char :=
  if c = '<' then "&lt;".toList
  else if c = '>' then "&gt;".toList
  else if c = '&' then "&amp;".toList
  else if c = '"' then "&quot;".toList
  else if isInvalidXmlChar c then [replacementChar]
  else [c]

/-- `_escapeXml` at the character-list level. -/
def escapeChars (l : List Char) : List Char := l.flatMap escapeChar

/-- `_escapeXml`. -/
def escapeXml (s : String) : String := ⟨escapeChars s.toList⟩

/-- A character that escaping leaves alone and that is inert for the lexer:
not one of the four reserved characters and not invalid. -/
def plainChar (c : Char) : Bool :=
  !(c = '<' || c = '>' || c = '&' || c = '"' || isInvalidXmlChar c)

/-! ## The XmlBalancer -/

/-- Attribute map of one tag (`OrderedDict` of attribute name to value).
Values are stored as the strings they are rendered with; the Python code
coerces non-string values with `str(...)` inside `_openTag`. -/
abbrev Attrs := List (String × String)

/-- One emitted piece of output, at the granularity of the markup structure:
`_openTag` emits one `openT`/`emptyT`, `_closeTag` one `closeT`, and each text
emission one `textT`.  Joining the rendered tokens gives `"".join(self._out)`. -/
inductive Token : Type
  | openT (tag : String) (attrs : Attrs)
  | emptyT (tag : String) (attrs : Attrs)
  | closeT (tag : String)
  | textT (s : String)
deriving DecidableEq, Repr

/-- Rendering of one attribute inside a start tag:
`' %s="' % attr`, the escaped value, `'"'`. -/
def attrChars (p : String × String) : List Char :=
  ' ' :: p.1.toList ++ '=' :: '"' :: escapeChars p.2.toList ++ ['"']

/-- Rendering of one output token, exactly the characters `_openTag`,
`_closeTag` and `_text` append to `self._out`. -/
def tokenChars : Token → List Char
  | .openT tag attrs => '<' :: tag.toList ++ attrs.flatMap attrChars ++ ['>']
  | .emptyT tag attrs => '<' :: tag.toList ++ attrs.flatMap attrChars ++ ['/', '>']
  | .closeT tag => '<' :: '/' :: tag.toList ++ ['>']
  | .textT s => escapeChars s.toList

/-- The XmlBalancer input alphabet: text fragments and the six command
namedtuples (`EncloseAllCommand`, `SetAttrCommand`, `DelAttrCommand`,
`EncloseTextCommand`, `StopEnclosingTextCommand`, `StandAloneTagCommand`). -/
inductive BCmd : Type
  | text (s : String)
  | encloseAll (tag : String) (attrs : Attrs)
  | setAttr (tag attr val : String)
  | delAttr (tag attr : String)
  | encloseText (tag : String) (attrs : Attrs)
  | stopEnclosingText
  | standAloneTag (tag : String) (attrs : Attrs) (content : Option String)
deriving DecidableEq, Repr

/-- Python truthiness of the optional `content` of a `StandAloneTagCommand`
(`None` and the empty string are falsy). -/
def contentTruthy : Option String → Bool
  | none => false
  | some s => s ≠ ""

/-- The mutable state of one `XmlBalancer` instance. -/
structure BState : Type where
  /-- `self._out`, as tokens (joined at the very end). -/
  out : List Token
  /-- `self._enclosingAllTags`. -/
  enclosingAllTags : List String
  /-- `self._tagsChanged`. -/
  tagsChanged : Bool
  /-- `self._openTags`. -/
  openTags : List String
  /-- `self._tags`. -/
  tags : List (String × Attrs)
  /-- `self._tagEnclosingText` (`(None, None)` is `none`). -/
  tagEnclosingText : Option (String × Attrs)
deriving DecidableEq, Repr

/-- `XmlBalancer.__init__`. -/
def initB : BState :=
  { out := [], enclosingAllTags := [], tagsChanged := false, openTags := [],
    tags := [], tagEnclosingText := none }

/-- `XmlBalancer._setAttr`, returning the updated tag map and whether
`self._tagsChanged` was set.  When the tag is missing (or present with an
empty, hence falsy, attribute map) the Python code installs an empty
`OrderedDict`; the subsequent `attrs.get(attr) != val` test then always fires
because string values are never `None`, so both effects are captured by one
update. -/
def setAttrT (tags : List (String × Attrs)) (tag attr val : String) :
    List (String × Attrs) × Bool :=
  if alookup ((alookup tags tag).getD []) attr ≠ some val then
    (aset tags tag (aset ((alookup tags tag).getD []) attr val), true)
  else
    (tags, false)

/-- `XmlBalancer._delAttr`.  `attrs = self._tags.get(tag); if not attrs:
return` treats a missing tag and an empty attribute map alike, which
`(alookup tags tag).getD [] = []` captures. -/
def delAttrT (tags : List (String × Attrs)) (tag attr : String) :
    List (String × Attrs) × Bool :=
  if (alookup tags tag).getD [] = [] then (tags, false)
  else if alookup ((alookup tags tag).getD []) attr = none then (tags, false)
  else if adel ((alookup tags tag).getD []) attr = [] then (adel tags tag, true)
  else (aset tags tag (adel ((alookup tags tag).getD []) attr), true)

/-- The tokens emitted by `XmlBalancer._outputTags` when it actually flushes:
close every open tag in reverse order, then reopen every tag of `self._tags`
in map order. -/
def flushToks (st : BState) : List Token :=
  st.openTags.reverse.map .closeT ++ st.tags.map (fun p => .openT p.1 p.2)

/-- `XmlBalancer._outputTags`. -/
def outputTags (st : BState) : BState :=
  if st.tagsChanged then
    { st with out := st.out ++ flushToks st,
              openTags := st.tags.map Prod.fst,
              tagsChanged := false }
  else st

/-- The tokens emitted by `XmlBalancer._text`: if a text-enclosing tag with a
truthy name is set, wrap the text in it. -/
def textToks (enc : Option (String × Attrs)) (s : String) : List Token :=
  match enc with
  | some (tag, attrs) =>
    if tag = "" then [.textT s]
    else [.openT tag attrs, .textT s, .closeT tag]
  | none => [.textT s]

/-- One iteration of the loop body of `XmlBalancer.generateXml`. -/
def balStep (st : BState) (c : BCmd) : BState :=
  match c with
  | .text s =>
    let st := outputTags st
    { st with out := st.out ++ textToks st.tagEnclosingText s }
  | .encloseAll tag attrs =>
    { st with out := st.out ++ [.openT tag attrs],
              enclosingAllTags := st.enclosingAllTags ++ [tag] }
  | .setAttr tag attr val =>
    { st with tags := (setAttrT st.tags tag attr val).1,
              tagsChanged := st.tagsChanged || (setAttrT st.tags tag attr val).2 }
  | .delAttr tag attr =>
    { st with tags := (delAttrT st.tags tag attr).1,
              tagsChanged := st.tagsChanged || (delAttrT st.tags tag attr).2 }
  | .encloseText tag attrs =>
    { st with tagEnclosingText := some (tag, attrs) }
  | .stopEnclosingText =>
    { st with tagEnclosingText := none }
  | .standAloneTag tag attrs content =>
    let st := outputTags st
    let body :=
      if contentTruthy content then
        .openT tag attrs :: textToks st.tagEnclosingText (content.getD "") ++
          [.closeT tag]
      else
        [.emptyT tag attrs]
    { st with out := st.out ++ body }

/-- The command loop of `XmlBalancer.generateXml`. -/
def balRun (st : BState) (cs : List BCmd) : BState := cs.foldl balStep st

/-- `XmlBalancer.generateXml`, producing the full token list: run the command
loop, then close any open tags (in reverse) and the enclose-all tags (in the
order they were opened — the Python loop iterates `self._enclosingAllTags`
forwards). -/
def genTokens (cs : List BCmd) : List Token :=
  let st := balRun initB cs
  st.out ++ st.openTags.reverse.map .closeT ++ st.enclosingAllTags.map .closeT

/-- `XmlBalancer.generateXml`: the joined output string. -/
def generateXml (cs : List BCmd) : String :=
  ⟨(genTokens cs).flatMap tokenChars⟩

/-! ## Speech sequences

Modelled from the spec: the speech command classes live in `speech.commands`,
which is not among the provided sources; the spec (§3) lists the variants and
their payloads.  Equality of commands is structural equality of the payloads
(the dedup rules of §4.4 compare commands by value).  Prosody multipliers are
Python floats, modelled as exact rationals; break times and mark indexes are
nonnegative integers, modelled as `Nat`.  `other` stands for an arbitrary
further `SpeechCommand` subclass with no translation handler (identified by
its class name, so that two `other`s are "of the same type" exactly when the
names agree). -/
inductive SpeechItem : Type
  | text (s : String)
  | index (n : ℕ)
  | characterMode (state : Bool)
  | langChange (lang : Option String)
  | brk (time : ℕ)
  | pitch (multiplier : ℚ)
  | rate (multiplier : ℚ)
  | volume (multiplier : ℚ)
  | phoneme (ipa : String) (fallback : String)
  | callback (name : String)
  | other (name : String)
deriving DecidableEq, Repr

/-- `type(a) is type(b)` for two speech-sequence elements: text fragments are
`str`, every command variant is its own class. -/
def sameVariant : SpeechItem → SpeechItem → Bool
  | .text _, .text _ => true
  | .index _, .index _ => true
  | .characterMode _, .characterMode _ => true
  | .langChange _, .langChange _ => true
  | .brk _, .brk _ => true
  | .pitch _, .pitch _ => true
  | .rate _, .rate _ => true
  | .volume _, .volume _ => true
  | .phoneme _ _, .phoneme _ _ => true
  | .callback _, .callback _ => true
  | .other a, .other b => a = b
  | _, _ => false

/-! ## The encode-side converter (`SpeechXmlConverter` / `SsmlConverter`) -/

/-- `toXmlLang`. -/
def toXmlLang (nvdaLang : String) : String :=
  ⟨nvdaLang.toList.map (fun c => if c = '_' then '-' else c)⟩

/-- `toNvdaLang`. -/
def toNvdaLang (xmlLang : String) : String :=
  ⟨xmlLang.toList.map (fun c => if c = '-' then '_' else c)⟩

/-- Python truncation `int(q)` of a rational (toward zero). -/
def truncQ (q : ℚ) : ℤ := if q < 0 then ⌈q⌉ else ⌊q⌋

/-- `SsmlConverter._convertProsody`: multiplier exactly 1 deletes the
attribute, anything else sets it to `"%d%%" % int(multiplier * 100)`. -/
def convertProsody (multiplier : ℚ) (attr : String) : BCmd :=
  if multiplier = 1 then
    .delAttr "prosody" attr
  else
    .setAttr "prosody" attr (intToStr (truncQ (multiplier * 100)) ++ "%")

/-- The per-command translation of `SsmlConverter` (the `convert...Command`
methods, found by `getattr` in `SpeechXmlConverter.generateBalancerCommands`).
`none` means no handler exists for the command's class: `SsmlConverter` has no
`convertCallbackCommand`, and `other` stands for any further handlerless
class.  `defaultLanguage` is the stored `self.defaultLanguage`, i.e. already
passed through `toXmlLang` by `__init__`.  Text fragments never reach this
dispatch (the caller yields them directly). -/
def ssmlConvertCommand (defaultLanguage : String) : SpeechItem → Option BCmd
  | .text _ => none
  | .index n => some (.standAloneTag "mark" [("name", natToStr n)] none)
  | .characterMode state =>
    if state then some (.encloseText "say-as" [("interpret-as", "characters")])
    else some .stopEnclosingText
  | .langChange lang =>
    -- `lang = command.lang or self.defaultLanguage`: `None` and `""` are falsy.
    let l := match lang with
      | none => defaultLanguage
      | some s => if s = "" then defaultLanguage else s
    some (.setAttr "voice" "xml:lang" (toXmlLang l))
  | .brk time => some (.standAloneTag "break" [("time", natToStr time ++ "ms")] none)
  | .pitch m => some (convertProsody m "pitch")
  | .rate m => some (convertProsody m "rate")
  | .volume m => some (convertProsody m "volume")
  | .phoneme ipa fallback =>
    some (.standAloneTag "phoneme" [("alphabet", "ipa"), ("ph", ipa)] (some fallback))
  | .callback _ => none
  | .other _ => none

/-- A diagnostic sent to the logging sink. -/
inductive LogEntry : Type
  | unsupportedCommand (item : SpeechItem)
deriving DecidableEq, Repr

/-- `SpeechXmlConverter.generateBalancerCommands`, parametrised by the
per-command translation: text is yielded as-is; for a command, a missing
handler logs `"Unsupported command"` and stops the generator (`return`); a
handler's result is yielded (no `SsmlConverter` handler returns `None`, so
the `if command is not None` guard always passes).  The `else` branch for
items that are neither `str` nor `SpeechCommand` is unreachable in this model
because every `SpeechItem` is one or the other. -/
def generateBalancerCommandsAux (convert : SpeechItem → Option BCmd) :
    List SpeechItem → List BCmd × List LogEntry
  | [] => ([], [])
  | .text s :: rest =>
    (.text s :: (generateBalancerCommandsAux convert rest).1,
     (generateBalancerCommandsAux convert rest).2)
  | item :: rest =>
    match convert item with
    | none => ([], [.unsupportedCommand item])
    | some c =>
      (c :: (generateBalancerCommandsAux convert rest).1,
       (generateBalancerCommandsAux convert rest).2)

/-- The root element attributes emitted by
`SsmlConverter.generateBalancerCommands`. -/
def speakAttrs (defaultLanguage : String) : Attrs :=
  [("version", "1.0"), ("xmlns", "http://www.w3.org/2001/10/synthesis"),
   ("xml:lang", defaultLanguage)]

/-- `SsmlConverter.generateBalancerCommands`: an `EncloseAllCommand` for the
root `speak` element, then the base-class translation.  `defaultLanguage` is
the stored field (already hyphenated). -/
def ssmlBalancerCommands (defaultLanguage : String) (ss : List SpeechItem) :
    List BCmd × List LogEntry :=
  (.encloseAll "speak" (speakAttrs defaultLanguage) ::
    (generateBalancerCommandsAux (ssmlConvertCommand defaultLanguage) ss).1,
   (generateBalancerCommandsAux (ssmlConvertCommand defaultLanguage) ss).2)

/-- `SsmlConverter(defaultLanguage).convertToXml(ss)` (with `nvdaLang` the raw
constructor argument, hyphenated by `__init__`). -/
def ssmlConvertToXml (nvdaLang : String) (ss : List SpeechItem) : String :=
  generateXml (ssmlBalancerCommands (toXmlLang nvdaLang) ss).1

/-! ## The decode-side markup parser

Modelled from the spec: the decode path drives `xml.parsers.expat`, an
external library, so the streaming parser itself is modelled here.  The model
is a strict single-pass parser for the markup dialect the encode path emits:
start tags with double-quoted attribute values, end tags, self-closing tags,
character data with the five predefined entities, exactly one root element,
matched nesting.  Everything outside this fragment (processing instructions,
comments, doctypes, numeric character references, single-quoted attribute
values) is reported as a syntax error; expat's splitting of character data at
buffer and entity boundaries is not modelled (each maximal run of character
data becomes one fragment). -/

/-- XML whitespace. -/
def isXmlSpace (c : Char) : Bool := c = ' ' || c = '\t' || c = '\n' || c = '\r'

/-- First character of an XML name (ASCII approximation). -/
def isNameStart (c : Char) : Bool := c.isAlpha || c = '_' || c = ':'

/-- Subsequent character of an XML name (ASCII approximation). -/
def isNameChar (c : Char) : Bool :=
  c.isAlphanum || c = '-' || c = '_' || c = ':' || c = '.'

/-- The five predefined entities. -/
def entChar (name : List Char) : Option Char :=
  if name = "lt".toList then some '<'
  else if name = "gt".toList then some '>'
  else if name = "amp".toList then some '&'
  else if name = "quot".toList then some '"'
  else if name = "apos".toList then some (Char.ofNat 39)
  else none

/-- A markup token: a start tag (possibly self-closing), an end tag, or one
run of character data (entities already decoded). -/
inductive XTok : Type
  | startTag (tag : String) (attrs : Attrs) (selfClosing : Bool)
  | endTag (tag : String)
  | text (s : String)
deriving DecidableEq, Repr

/-- Lexer mode.  Accumulators are kept in reverse order. -/
inductive LMode : Type
  | text (acc : List Char)
  | ent (acc : List Char) (eacc : List Char)
  | lt
  | tagName (nacc : List Char)
  | inTag (tag : String) (attrs : Attrs)
  | attrName (tag : String) (attrs : Attrs) (anacc : List Char)
  | expectEq (tag : String) (attrs : Attrs) (aname : String)
  | expectQuote (tag : String) (attrs : Attrs) (aname : String)
  | attrVal (tag : String) (attrs : Attrs) (aname : String) (vacc : List Char)
  | attrEnt (tag : String) (attrs : Attrs) (aname : String)
      (vacc : List Char) (eacc : List Char)
  | slash (tag : String) (attrs : Attrs)
  | closeLt (nacc : List Char)
  | closeWs (tag : String)
  | fail (msg : String)
deriving DecidableEq, Repr

/-- Lexer state: emitted tokens (in reverse) and the current mode. -/
structure LexSt : Type where
  toks : List XTok
  mode : LMode
deriving DecidableEq, Repr

/-- Emit any pending character data as one token. -/
def flushText (acc : List Char) (toks : List XTok) : List XTok :=
  if acc = [] then toks else .text ⟨acc.reverse⟩ :: toks

/-- One lexer step. -/
def lexStep (st : LexSt) (c : Char) : LexSt :=
  match st.mode with
  | .fail m => ⟨st.toks, .fail m⟩
  | .text acc =>
    if c = '<' then ⟨flushText acc st.toks, .lt⟩
    else if c = '&' then ⟨st.toks, .ent acc []⟩
    else if isInvalidXmlChar c then ⟨st.toks, .fail "invalid character"⟩
    else ⟨st.toks, .text (c :: acc)⟩
  | .ent acc eacc =>
    if c = ';' then
      match entChar eacc.reverse with
      | some d => ⟨st.toks, .text (d :: acc)⟩
      | none => ⟨st.toks, .fail "undefined entity"⟩
    else if c.isAlphanum then ⟨st.toks, .ent acc (c :: eacc)⟩
    else ⟨st.toks, .fail "not well-formed entity"⟩
  | .lt =>
    if c = '/' then ⟨st.toks, .closeLt []⟩
    else if isNameStart c then ⟨st.toks, .tagName [c]⟩
    else ⟨st.toks, .fail "syntax error after opening angle bracket"⟩
  | .tagName nacc =>
    if isNameChar c then ⟨st.toks, .tagName (c :: nacc)⟩
    else if isXmlSpace c then ⟨st.toks, .inTag ⟨nacc.reverse⟩ []⟩
    else if c = '>' then ⟨.startTag ⟨nacc.reverse⟩ [] false :: st.toks, .text []⟩
    else if c = '/' then ⟨st.toks, .slash ⟨nacc.reverse⟩ []⟩
    else ⟨st.toks, .fail "bad character in tag name"⟩
  | .inTag tag attrs =>
    if isXmlSpace c then ⟨st.toks, .inTag tag attrs⟩
    else if isNameStart c then ⟨st.toks, .attrName tag attrs [c]⟩
    else if c = '>' then ⟨.startTag tag attrs false :: st.toks, .text []⟩
    else if c = '/' then ⟨st.toks, .slash tag attrs⟩
    else ⟨st.toks, .fail "bad character in tag"⟩
  | .attrName tag attrs anacc =>
    if isNameChar c then ⟨st.toks, .attrName tag attrs (c :: anacc)⟩
    else if c = '=' then ⟨st.toks, .expectQuote tag attrs ⟨anacc.reverse⟩⟩
    else if isXmlSpace c then ⟨st.toks, .expectEq tag attrs ⟨anacc.reverse⟩⟩
    else ⟨st.toks, .fail "bad character in attribute name"⟩
  | .expectEq tag attrs aname =>
    if isXmlSpace c then ⟨st.toks, .expectEq tag attrs aname⟩
    else if c = '=' then ⟨st.toks, .expectQuote tag attrs aname⟩
    else ⟨st.toks, .fail "expected equals sign"⟩
  | .expectQuote tag attrs aname =>
    if isXmlSpace c then ⟨st.toks, .expectQuote tag attrs aname⟩
    else if c = '"' then ⟨st.toks, .attrVal tag attrs aname []⟩
    else ⟨st.toks, .fail "expected attribute value"⟩
  | .attrVal tag attrs aname vacc =>
    if c = '"' then
      if alookup attrs aname = none then
        ⟨st.toks, .inTag tag (attrs ++ [(aname, ⟨vacc.reverse⟩)])⟩
      else ⟨st.toks, .fail "duplicate attribute"⟩
    else if c = '&' then ⟨st.toks, .attrEnt tag attrs aname vacc []⟩
    else if c = '<' then ⟨st.toks, .fail "angle bracket in attribute value"⟩
    else if isInvalidXmlChar c then ⟨st.toks, .fail "invalid character"⟩
    else ⟨st.toks, .attrVal tag attrs aname (c :: vacc)⟩
  | .attrEnt tag attrs aname vacc eacc =>
    if c = ';' then
      match entChar eacc.reverse with
      | some d => ⟨st.toks, .attrVal tag attrs aname (d :: vacc)⟩
      | none => ⟨st.toks, .fail "undefined entity"⟩
    else if c.isAlphanum then ⟨st.toks, .attrEnt tag attrs aname vacc (c :: eacc)⟩
    else ⟨st.toks, .fail "not well-formed entity"⟩
  | .slash tag attrs =>
    if c = '>' then ⟨.startTag tag attrs true :: st.toks, .text []⟩
    else ⟨st.toks, .fail "expected closing angle bracket"⟩
  | .closeLt nacc =>
    if nacc = [] then
      if isNameStart c then ⟨st.toks, .closeLt [c]⟩
      else ⟨st.toks, .fail "bad end tag"⟩
    else if isNameChar c then ⟨st.toks, .closeLt (c :: nacc)⟩
    else if c = '>' then ⟨.endTag ⟨nacc.reverse⟩ :: st.toks, .text []⟩
    else if isXmlSpace c then ⟨st.toks, .closeWs ⟨nacc.reverse⟩⟩
    else ⟨st.toks, .fail "bad character in end tag"⟩
  | .closeWs tag =>
    if isXmlSpace c then ⟨st.toks, .closeWs tag⟩
    else if c = '>' then ⟨.endTag tag :: st.toks, .text []⟩
    else ⟨st.toks, .fail "bad character in end tag"⟩

/-- Run the lexer over a character list. -/
def lexRun (st : LexSt) (cs : List Char) : LexSt := cs.foldl lexStep st

/-- Initial lexer state. -/
def lexInit : LexSt := ⟨[], .text []⟩

/-- Finish lexing: flush pending character data; a dangling partial token or
a recorded failure is a syntax error. -/
def lexFinish (st : LexSt) : Except String (List XTok) :=
  match st.mode with
  | .text acc => .ok (flushText acc st.toks).reverse
  | .fail m => .error m
  | _ => .error "unclosed token"

/-- Tokenize a whole document. -/
def lexAll (s : String) : Except String (List XTok) :=
  lexFinish (lexRun lexInit s.toList)

/-- An expat event as delivered to the handlers: `StartElementHandler`,
`EndElementHandler` (named `stop` here) or `CharacterDataHandler`. -/
inductive XEvent : Type
  | start (tag : String) (attrs : Attrs)
  | stop (tag : String)
  | chars (s : String)
deriving DecidableEq, Repr

/-- Check a token stream against the document grammar (matched nesting,
single root, no character data outside the root except whitespace) and
produce the event stream.  `stack` is the open-element stack, `rootDone`
records that the root element has been closed.  A self-closing tag delivers
a start event immediately followed by an end event, as expat does. -/
def buildEventsGo (stack : List String) (rootDone : Bool) :
    List XTok → Except String (List XEvent)
  | [] =>
    if stack.isEmpty then
      if rootDone then .ok [] else .error "no element found"
    else .error "unclosed element"
  | t :: toks =>
    match t with
    | .text s =>
      if stack.isEmpty then
        if s.toList.all isXmlSpace then buildEventsGo stack rootDone toks
        else .error "text outside root element"
      else
        match buildEventsGo stack rootDone toks with
        | .error e => .error e
        | .ok evs => .ok (.chars s :: evs)
    | .startTag tag attrs sc =>
      if stack.isEmpty && rootDone then .error "junk after document element"
      else if sc then
        match buildEventsGo stack (rootDone || stack.isEmpty) toks with
        | .error e => .error e
        | .ok evs => .ok (.start tag attrs :: .stop tag :: evs)
      else
        match buildEventsGo (tag :: stack) rootDone toks with
        | .error e => .error e
        | .ok evs => .ok (.start tag attrs :: evs)
    | .endTag tag =>
      match stack with
      | [] => .error "mismatched tag"
      | top :: rest =>
        if top = tag then
          match buildEventsGo rest (rootDone || rest.isEmpty) toks with
          | .error e => .error e
          | .ok evs => .ok (.stop tag :: evs)
        else .error "mismatched tag"

/-- Check a whole token stream (one root element, starting with nothing
open). -/
def buildEvents (toks : List XTok) : Except String (List XEvent) :=
  buildEventsGo [] false toks

/-! ## The decode-side handlers (`SpeechXmlParser` / `SsmlParser`) -/

/-- `"".join(tagName.title().split("-"))`: Python `str.title()` uppercases a
cased character that follows a non-cased character and lowercases the rest
(ASCII approximation of "cased" by `isAlpha`); splitting on `"-"` and joining
removes the hyphens. -/
def pyTitleAux : Bool → List Char → List Char
  | _, [] => []
  | prevAlpha, c :: t =>
    (if c.isAlpha then (if prevAlpha then c.toLower else c.toUpper) else c) ::
      pyTitleAux c.isAlpha t

/-- The tag-name normalisation of `SpeechXmlParser._elementHandler`. -/
def normalizeTag (s : String) : String :=
  ⟨(pyTitleAux false s.toList).filter (fun c => c ≠ '-')⟩

/-- `RE_PERCENTAGE` (`^(\d+)(\.\d+)?%$`) followed by `float(...) `: the decimal
value as an exact rational. -/
def parsePercentage (s : String) : Option ℚ :=
  let l := s.toList
  let ds := l.takeWhile Char.isDigit
  let rest := l.dropWhile Char.isDigit
  if ds = [] then none
  else
    match rest with
    | ['%'] => some (digitsVal ds)
    | '.' :: rest2 =>
      let fs := rest2.takeWhile Char.isDigit
      let rest3 := rest2.dropWhile Char.isDigit
      if fs = [] then none
      else if rest3 = ['%'] then
        some ((digitsVal ds : ℚ) + (digitsVal fs : ℚ) / (10 : ℚ) ^ fs.length)
      else none
    | _ => none

/-- `RE_TIME_MS` (`^(\d+)ms$`, case-insensitive) followed by `int(...)`. -/
def parseTimeMs (s : String) : Option ℕ :=
  let l := s.toList
  let ds := l.takeWhile Char.isDigit
  let rest := l.dropWhile Char.isDigit
  if ds = [] then none
  else
    match rest with
    | [m, s'] =>
      if (m = 'm' || m = 'M') && (s' = 's' || s' = 'S') then some (digitsVal ds)
      else none
    | _ => none

/-- The loop body of `SsmlParser.parseProsody` over the attribute items, in
order: attributes whose value is not a percentage are skipped (logged), known
attribute names yield the matching command, unknown ones are skipped
(logged).  On a closing tag the multiplier is forced to 1. -/
def prosodyCmds (attrs : Attrs) (isOpenTag : Bool) : List SpeechItem :=
  attrs.filterMap fun p =>
    match parsePercentage p.2 with
    | none => none
    | some pct =>
      let multiplier : ℚ := if isOpenTag then pct / 100 else 1
      match p.1 with
      | "pitch" => some (.pitch multiplier)
      | "volume" => some (.volume multiplier)
      | "rate" => some (.rate multiplier)
      | _ => none

/-- `SsmlParser.parseSayAs`: `state = attrs is not None and
attrs.get("interpret-as") == "characters"`. -/
def parseSayAs (attrs? : Option Attrs) : List SpeechItem :=
  [.characterMode (match attrs? with
    | none => false
    | some a => alookup a "interpret-as" == some "characters")]

/-- `SsmlParser.parseVoice`. -/
def parseVoice (attrs? : Option Attrs) : List SpeechItem :=
  match attrs? with
  | none => []
  | some a =>
    match alookup a "xml:lang" with
    | none => []
    | some l => [.langChange (some (toNvdaLang l))]

/-- `SsmlParser.parseBreak`: a `time` value not matching `RE_TIME_MS` is
logged and skipped. -/
def parseBreak (attrs? : Option Attrs) : List SpeechItem :=
  match attrs? with
  | none => []
  | some a =>
    match alookup a "time" with
    | none => []
    | some t =>
      match parseTimeMs t with
      | none => []
      | some n => [.brk n]

/-- `SsmlParser.parseMark`: yields a `CallbackCommand` only if a mark
callback was supplied at construction time. -/
def parseMark (markCallback : Bool) (attrs? : Option Attrs) : List SpeechItem :=
  match attrs? with
  | none => []
  | some a =>
    match alookup a "name" with
    | none => []
    | some n => if markCallback then [.callback n] else []

/-- The handler dispatch of `SpeechXmlParser._elementHandler`: the per-tag
handlers of `SsmlParser`, selected on the normalised tag name; an unknown tag
logs a warning and yields nothing.  `attrs? = none` is the closing-tag call.
`cache` is `self._cachedProsodyAttrs` of `parseProsody` (Python appends and
pops at the end of the list; modelled at the head — same LIFO discipline).
Popping from an empty cache is Python's `IndexError`, modelled as an
error. -/
def runHandler (markCallback : Bool) (cache : List Attrs) (tagName : String)
    (attrs? : Option Attrs) : Except String (List SpeechItem × List Attrs) :=
  if normalizeTag tagName = "SayAs" then .ok (parseSayAs attrs?, cache)
  else if normalizeTag tagName = "Voice" then .ok (parseVoice attrs?, cache)
  else if normalizeTag tagName = "Break" then .ok (parseBreak attrs?, cache)
  else if normalizeTag tagName = "Prosody" then
    match attrs? with
    | some a => .ok (prosodyCmds a true, a :: cache)
    | none =>
      match cache with
      | [] => .error "pop from empty list"
      | a :: rest => .ok (prosodyCmds a false, rest)
  else if normalizeTag tagName = "Speak" then .ok ([], cache)
  else if normalizeTag tagName = "Mark" then .ok (parseMark markCallback attrs?, cache)
  else .ok ([], cache)

/-- The deduplication of `SpeechXmlParser._elementHandler`, applied to one
produced command against the sequence built so far (kept in reverse): (1) if
the last element is of the same type, remove it; (2) if the most recent
remaining command of the same type equals the new one, do not append it. -/
def dedupPush (rseq : List SpeechItem) (command : SpeechItem) : List SpeechItem :=
  let rseq := match rseq with
    | last :: t => if sameVariant last command then t else last :: t
    | [] => []
  match rseq.find? (fun c => sameVariant c command) with
  | some prevCommand => if prevCommand = command then rseq else command :: rseq
  | none => command :: rseq

/-- Parser state: the speech sequence so far (reversed) and
`self._cachedProsodyAttrs`. -/
structure PState : Type where
  rseq : List SpeechItem
  cache : List Attrs
deriving DecidableEq, Repr

/-- Process one expat event: character data is appended directly
(`CharacterDataHandler`), element events go through the handler dispatch and
each produced command through the dedup rules. -/
def handleEvent (markCallback : Bool) (st : PState) (ev : XEvent) :
    Except String PState :=
  match ev with
  | .chars s => .ok { st with rseq := .text s :: st.rseq }
  | .start tag attrs =>
    match runHandler markCallback st.cache tag (some attrs) with
    | .error e => .error e
    | .ok (cmds, cache') => .ok ⟨cmds.foldl dedupPush st.rseq, cache'⟩
  | .stop tag =>
    match runHandler markCallback st.cache tag none with
    | .error e => .error e
    | .ok (cmds, cache') => .ok ⟨cmds.foldl dedupPush st.rseq, cache'⟩

/-- The parsing stage of `convertFromXml`: tokenize, check the document, run
the handlers.  Any failure is the model of an exception inside
`parser.Parse(xml)`. -/
def xmlPipeline (markCallback : Bool) (xml : String) :
    Except String (List SpeechItem) :=
  match lexAll xml with
  | .error e => .error e
  | .ok toks =>
    match buildEvents toks with
    | .error e => .error e
    | .ok evs =>
      match evs.foldlM (handleEvent markCallback) ⟨[], []⟩ with
      | .error e => .error e
      | .ok st => .ok st.rseq.reverse

/-- `SsmlParser.convertFromXml`: ` _cachedProsodyAttrs` is reset, the parse
runs, and any exception is re-raised as `ValueError(f"XML: {xml}")`. -/
def convertFromXml (markCallback : Bool) (xml : String) :
    Except String (List SpeechItem) :=
  match xmlPipeline markCallback xml with
  | .ok s => .ok s
  | .error _ => .error ("XML: " ++ xml)

/-- The parser-level syntax check alone (tokenizing plus document grammar),
with no handler semantics: this is the model's notion of "syntactically valid
markup". -/
def syntaxEvents (xml : String) : Except String (List XEvent) :=
  match lexAll xml with
  | .error e => .error e
  | .ok toks => buildEvents toks

/-- `Except` success as a Boolean. -/
def isOkE {ε α : Type} : Except ε α → Bool
  | .ok _ => true
  | .error _ => false

/-- One step of the dedup fold: a text fragment is appended directly (the
parser's `CharacterDataHandler` bypasses the dedup rules), every command goes
through the two dedup rules. -/
def dedupStep (rseq : List SpeechItem) (item : SpeechItem) : List SpeechItem :=
  match item with
  | .text s => .text s :: rseq
  | c => dedupPush rseq c

/-- Modelled from the spec (§4.4): "a sequence equal to the original after
the dedup rules are applied" — text fragments pass through unchanged, every
command goes through the two dedup rules in order. -/
def dedupApply (ss : List SpeechItem) : List SpeechItem :=
  (ss.foldl dedupStep []).reverse

/-! ## Well-formedness of a token stream

"Every opened tag has exactly one matching closing tag and closing tags occur
in exact reverse order of the corresponding opening tags" is the stack
discipline below: an opening token pushes its tag, a closing token must match
the innermost open tag, and at the end nothing may remain open. -/

/-- One step of the matching check. -/
def tokStep (stack : List String) : Token → Option (List String)
  | .openT tag _ => some (tag :: stack)
  | .emptyT _ _ => some stack
  | .textT _ => some stack
  | .closeT tag =>
    match stack with
    | [] => none
    | top :: rest => if top = tag then some rest else none

/-- Run the matching check from a given stack of open tags. -/
def tokRunFrom (stack : List String) : List Token → Option (List String)
  | [] => some stack
  | t :: ts =>
    match tokStep stack t with
    | none => none
    | some s' => tokRunFrom s' ts

/-- A token stream is balanced markup. -/
def balancedToks (ts : List Token) : Prop := tokRunFrom [] ts = some []

instance (ts : List Token) : Decidable (balancedToks ts) := by
  unfold balancedToks; infer_instance

/-- No `EncloseAllCommand` occurs in the list. -/
def noEncloseAll (cs : List BCmd) : Bool :=
  cs.all fun c => match c with | .encloseAll _ _ => false | _ => true

/-- A speech command whose class has no `convert...Command` handler on
`SsmlConverter`. -/
def handlerlessCommand : SpeechItem → Bool
  | .callback _ => true
  | .other _ => true
  | _ => false

/-- A speech-sequence element the encode path handles fully: a text fragment
or a command with a translation handler. -/
def supportedItem (defaultLanguage : String) : SpeechItem → Bool
  | .text _ => true
  | i => (ssmlConvertCommand defaultLanguage i).isSome

/-- The balancer-command list of `SsmlConverter.generateBalancerCommands`. -/
def ssmlCmds (defaultLanguage : String) (ss : List SpeechItem) : List BCmd :=
  (ssmlBalancerCommands defaultLanguage ss).1

/-- The invariant of the balancer's matching state: the output so far is
prefix-balanced, with exactly the enclose-all tags and then the open tags
still open, and at most one enclose-all tag has been seen. -/
def balInv (st : BState) : Prop :=
  tokRunFrom [] st.out = some (st.openTags.reverse ++ st.enclosingAllTags.reverse) ∧
  st.enclosingAllTags.length ≤ 1

/-- A balancer state with a text-enclosing tag in force, used as a concrete
input below. -/
def c10State : BState :=
  { initB with tagEnclosingText := some ("say-as", [("interpret-as", "characters")]) }

/-- Distinct keys in an ordered association list. -/
def keysNodup {α : Type} (l : List (String × α)) : Prop := (l.map Prod.fst).Nodup

/-- Well-formedness of the balancer's tag map: keys are distinct and so are
each tag's attribute names (the invariant `OrderedDict`s maintain). -/
def tagsWF (tags : List (String × Attrs)) : Prop :=
  keysNodup tags ∧ ∀ p ∈ tags, keysNodup p.2

/-- The three prosody command kinds. -/
inductive ProsKind : Type
  | pitchK
  | rateK
  | volumeK
deriving DecidableEq, Repr

/-- The prosody attribute name for a kind. -/
def prosAttrName : ProsKind → String
  | .pitchK => "pitch"
  | .rateK => "rate"
  | .volumeK => "volume"

/-- The speech command of a prosody kind. -/
def prosItem : ProsKind → ℚ → SpeechItem
  | .pitchK, m => .pitch m
  | .rateK, m => .rate m
  | .volumeK, m => .volume m

/-- Classify an item as a prosody command. -/
def prosOf : SpeechItem → Option (ProsKind × ℚ)
  | .pitch m => some (.pitchK, m)
  | .rate m => some (.rateK, m)
  | .volume m => some (.volumeK, m)
  | _ => none

/-- No command of the given prosody kind with a multiplier other than 1. -/
def noSetOfKind (k : ProsKind) (ss : List SpeechItem) : Bool :=
  ss.all fun i =>
    match prosOf i with
    | some (k', m) => decide (k' = k → m = 1)
    | none => true

/-- No prosody command at all. -/
def noProsodyItems (ss : List SpeechItem) : Bool :=
  ss.all fun i => (prosOf i).isNone

/-- The token is not an opening (or self-closing) `prosody` tag carrying the
given attribute. -/
def tokAttrAbsent (a : String) : Token → Bool
  | .openT tag attrs => !(tag = "prosody" && (alookup attrs a).isSome)
  | .emptyT tag attrs => !(tag = "prosody" && (alookup attrs a).isSome)
  | _ => true

/-- The token is not an opening (or self-closing) `prosody` tag at all. -/
def tokNotProsody : Token → Bool
  | .openT tag _ => !(tag = "prosody")
  | .emptyT tag _ => !(tag = "prosody")
  | _ => true

/-- The command cannot (re)introduce the given `prosody` attribute. -/
def cmdProsFree (a : String) : BCmd → Bool
  | .setAttr tag attr _ => !(tag = "prosody" && attr = a)
  | .encloseAll tag attrs => !(tag = "prosody" && (alookup attrs a).isSome)
  | .encloseText tag attrs => !(tag = "prosody" && (alookup attrs a).isSome)
  | .standAloneTag tag attrs _ => !(tag = "prosody" && (alookup attrs a).isSome)
  | _ => true

/-- The command cannot (re)introduce the `prosody` tag. -/
def cmdNotProsody : BCmd → Bool
  | .setAttr tag _ _ => !(tag = "prosody")
  | .encloseAll tag _ => !(tag = "prosody")
  | .encloseText tag _ => !(tag = "prosody")
  | .standAloneTag tag _ _ => !(tag = "prosody")
  | _ => true

/-- The given `prosody` attribute is not in force in the state. -/
def prosFreeState (a : String) (st : BState) : Prop :=
  tagsWF st.tags ∧
  (∀ attrs, alookup st.tags "prosody" = some attrs → alookup attrs a = none) ∧
  (∀ t at', st.tagEnclosingText = some (t, at') →
    t = "prosody" → alookup at' a = none)

/-- The `prosody` tag is not in force in the state. -/
def noProsodyState (st : BState) : Prop :=
  alookup st.tags "prosody" = none ∧
  (∀ t at', st.tagEnclosingText = some (t, at') → t ≠ "prosody")

/-- A string of characters that escaping leaves unchanged and that are inert
for the lexer (no markup delimiters, no invalid characters). -/
def plainStr (s : String) : Bool := s.toList.all plainChar

/-- Is an item a `LangChangeCommand`? -/
def isLangChange : SpeechItem → Bool
  | .langChange _ => true
  | _ => false

/-- A document whose root contains two structurally identical consecutive
`voice` elements: same `xml:lang` value and same character content. -/
def voiceDoc (lang content : String) : String :=
  "<speak><voice xml:lang=\"" ++ lang ++ "\">" ++ content ++
    "</voice><voice xml:lang=\"" ++ lang ++ "\">" ++ content ++
    "</voice></speak>"

/-- The items of the restricted round-trip class: `BreakCommand`s and
nonempty text fragments that escaping leaves unchanged. -/
def roundTripItem : SpeechItem → Bool
  | .brk _ => true
  | .text s => (s != "") && plainStr s
  | _ => false

/-- No two adjacent text fragments (the parser merges adjacent character
data into one fragment, so adjacent texts cannot round-trip separately). -/
def noAdjacentTexts : List SpeechItem → Bool
  | .text _ :: .text _ :: _ => false
  | _ :: rest => noAdjacentTexts rest
  | [] => true

/-- The balancer command an item of the round-trip class translates to
(catch-all arbitrary, unused: the class only holds texts and breaks). -/
def c2Cmd : SpeechItem → BCmd
  | .text s => .text s
  | .brk n => .standAloneTag "break" [("time", natToStr n ++ "ms")] none
  | _ => .text ""

/-- The output token an item of the round-trip class renders to. -/
def c2Tok : SpeechItem → Token
  | .text s => .textT s
  | .brk n => .emptyT "break" [("time", natToStr n ++ "ms")]
  | _ => .textT ""

/-- The markup tokens the lexer recovers for one item of the class. -/
def c2Toks : SpeechItem → List XTok
  | .text s => [.text s]
  | .brk n => [.startTag "break" [("time", natToStr n ++ "ms")] true]
  | _ => []

/-- The expat events one item of the class produces. -/
def c2Events : SpeechItem → List XEvent
  | .text s => [.chars s]
  | .brk n => [.start "break" [("time", natToStr n ++ "ms")], .stop "break"]
  | _ => []

/-- The rendered characters of the document body for a class sequence. -/
def c2BodyChars (ss : List SpeechItem) : List Char :=
  (ss.map c2Tok).flatMap tokenChars

/-! ## Theorems -/

theorem tokRunFrom_append (a b : List Token) (s : List String) :
    tokRunFrom s (a ++ b) = (tokRunFrom s a).bind fun s' => tokRunFrom s' b := by
  induction a generalizing s with
  | nil => simp [tokRunFrom]
  | cons t ts ih =>
    simp only [List.cons_append, tokRunFrom]
    cases tokStep s t with
    | none => rfl
    | some s' => exact ih s'

theorem tokRunFrom_closes (L E : List String) :
    tokRunFrom (L ++ E) (L.map Token.closeT) = some E := by
  induction L with
  | nil => simp [tokRunFrom]
  | cons t ts ih => simp [tokRunFrom, tokStep, ih]

theorem tokRunFrom_opens (K : List (String × Attrs)) (E : List String) :
    tokRunFrom E (K.map fun p => Token.openT p.1 p.2) =
      some ((K.map Prod.fst).reverse ++ E) := by
  induction K generalizing E with
  | nil => simp [tokRunFrom]
  | cons p ps ih => simp [tokRunFrom, tokStep, ih]

theorem tokRunFrom_textToks (enc : Option (String × Attrs)) (s : String)
    (stck : List String) : tokRunFrom stck (textToks enc s) = some stck := by
  match enc with
  | none => simp [textToks, tokRunFrom, tokStep]
  | some (tag, attrs) =>
    by_cases h : tag = ""
    · simp [textToks, h, tokRunFrom, tokStep]
    · simp [textToks, h, tokRunFrom, tokStep]

theorem balInv_outputTags (st : BState) (h : balInv st) : balInv (outputTags st) := by
  by_cases hch : st.tagsChanged
  · have heq : outputTags st =
        { st with out := st.out ++ flushToks st,
                  openTags := st.tags.map Prod.fst, tagsChanged := false } := by
      unfold outputTags
      rw [if_pos hch]
    rw [heq]
    refine ⟨?_, h.2⟩
    show tokRunFrom [] (st.out ++ flushToks st) =
      some ((st.tags.map Prod.fst).reverse ++ st.enclosingAllTags.reverse)
    rw [tokRunFrom_append, h.1, Option.some_bind]
    unfold flushToks
    rw [tokRunFrom_append, tokRunFrom_closes, Option.some_bind, tokRunFrom_opens]
  · have heq : outputTags st = st := by
      unfold outputTags
      rw [if_neg hch]
    rw [heq]
    exact h

theorem balInv_mk (st : BState) (Δ : List Token) (h : balInv st)
    (hΔ : tokRunFrom (st.openTags.reverse ++ st.enclosingAllTags.reverse) Δ =
      some (st.openTags.reverse ++ st.enclosingAllTags.reverse)) :
    balInv { st with out := st.out ++ Δ } := by
  refine ⟨?_, h.2⟩
  show tokRunFrom [] (st.out ++ Δ) =
    some (st.openTags.reverse ++ st.enclosingAllTags.reverse)
  rw [tokRunFrom_append, h.1, Option.some_bind, hΔ]

theorem balInv_step (st : BState) (c : BCmd) (h : balInv st)
    (hc : ∀ t a, c ≠ .encloseAll t a) : balInv (balStep st c) := by
  cases c with
  | text s =>
    exact balInv_mk (outputTags st) _ (balInv_outputTags st h)
      (tokRunFrom_textToks _ _ _)
  | encloseAll t a => exact absurd rfl (hc t a)
  | setAttr tag attr val => exact h
  | delAttr tag attr => exact h
  | encloseText tag attrs => exact h
  | stopEnclosingText => exact h
  | standAloneTag tag attrs content =>
    refine balInv_mk (outputTags st) _ (balInv_outputTags st h) ?_
    by_cases hct : contentTruthy content
    · rw [if_pos hct]
      simp only [tokRunFrom, tokStep]
      simp only [List.append_eq]
      rw [tokRunFrom_append, tokRunFrom_textToks, Option.some_bind]
      simp [tokRunFrom, tokStep]
    · rw [if_neg hct]
      simp [tokRunFrom, tokStep]

theorem noEncloseAll_cons {c : BCmd} {rest : List BCmd}
    (h : noEncloseAll (c :: rest) = true) :
    (∀ t a, c ≠ BCmd.encloseAll t a) ∧ noEncloseAll rest = true := by
  unfold noEncloseAll at h
  rw [List.all_cons, Bool.and_eq_true] at h
  refine ⟨?_, h.2⟩
  intro t a hne
  have h1 := h.1
  subst hne
  simp at h1

theorem balInv_run (cs : List BCmd) (st : BState) (h : balInv st)
    (hc : noEncloseAll cs = true) : balInv (balRun st cs) := by
  induction cs generalizing st with
  | nil => exact h
  | cons c rest ih =>
    exact ih (balStep st c) (balInv_step st c h (noEncloseAll_cons hc).1)
      (noEncloseAll_cons hc).2

theorem balInv_initB : balInv initB := by
  constructor <;> simp [initB, tokRunFrom]

/-- C1 (counterexample): two `EncloseAllCommand`s with different tags make
`generateXml` close the enclose-all tags in the order they were opened, not
in reverse: the output is `<a><b></a></b>`, whose closing tags are not in
reverse order of its opening tags. -/
theorem c1_encloseAll_counterexample :
    generateXml [BCmd.encloseAll "a" [], BCmd.encloseAll "b" []] = "<a><b></a></b>" ∧
    ¬ balancedToks (genTokens [BCmd.encloseAll "a" [], BCmd.encloseAll "b" []]) := by
  constructor
  · rfl
  · decide

/-- C1 (amended): for every balancer command sequence in which an
`EncloseAllCommand` occurs at most as the very first command (the documented
precondition: "This must be the first command"), the generated markup is
well-formed: every opened tag has exactly one matching closing tag and
closing tags occur in exact reverse order of the corresponding opening tags,
including the tag of the single `EncloseAllCommand`, closed at end of
input. -/
theorem c1_balance_amended (cs : List BCmd) (h : noEncloseAll cs.tail = true) :
    balancedToks (genTokens cs) := by
  have hinv : balInv (balRun initB cs) := by
    cases cs with
    | nil => exact balInv_initB
    | cons c rest =>
      have h1 : balInv (balStep initB c) := by
        cases c with
        | encloseAll t a =>
          refine ⟨?_, ?_⟩
          · show tokRunFrom [] (([] : List Token) ++ [Token.openT t a]) =
              some (([] : List String).reverse ++ (([] : List String) ++ [t]).reverse)
            simp [tokRunFrom, tokStep]
          · show (([] : List String) ++ [t]).length ≤ 1
            simp
        | text s => exact balInv_step initB (.text s) balInv_initB (by intro t a; simp)
        | setAttr tag attr val =>
          exact balInv_step initB _ balInv_initB (by intro t a; simp)
        | delAttr tag attr =>
          exact balInv_step initB _ balInv_initB (by intro t a; simp)
        | encloseText tag attrs =>
          exact balInv_step initB _ balInv_initB (by intro t a; simp)
        | stopEnclosingText =>
          exact balInv_step initB _ balInv_initB (by intro t a; simp)
        | standAloneTag tag attrs content =>
          exact balInv_step initB _ balInv_initB (by intro t a; simp)
      exact balInv_run rest _ h1 h
  obtain ⟨h1, h2⟩ := hinv
  show tokRunFrom [] ((balRun initB cs).out ++
    (balRun initB cs).openTags.reverse.map Token.closeT ++
    (balRun initB cs).enclosingAllTags.map Token.closeT) = some []
  rw [List.append_assoc, tokRunFrom_append, h1, Option.some_bind,
    tokRunFrom_append, tokRunFrom_closes, Option.some_bind]
  cases hE : (balRun initB cs).enclosingAllTags with
  | nil => simp [tokRunFrom]
  | cons t ts =>
    cases ts with
    | nil => simp [tokRunFrom, tokStep]
    | cons t₂ ts₂ =>
      rw [hE] at h2
      simp at h2

/-- C1 witness: a concrete sequence satisfying the amended hypothesis. -/
theorem c1_balance_witness :
    noEncloseAll ([BCmd.setAttr "voice" "xml:lang" "fr", BCmd.text "x"]) = true ∧
    balancedToks (genTokens [BCmd.encloseAll "speak" [], BCmd.setAttr "voice" "xml:lang" "fr",
      BCmd.text "x"]) :=
  ⟨by decide, c1_balance_amended
    [BCmd.encloseAll "speak" [], BCmd.setAttr "voice" "xml:lang" "fr", BCmd.text "x"]
    (by decide)⟩

theorem balRun_append (st : BState) (a b : List BCmd) :
    balRun st (a ++ b) = balRun (balRun st a) b := by
  unfold balRun
  rw [List.foldl_append]

theorem balRun_cons (st : BState) (c : BCmd) (b : List BCmd) :
    balRun st (c :: b) = balRun (balStep st c) b := rfl

theorem generateXml_eq_of_run_eq {a b : List BCmd}
    (h : balRun initB a = balRun initB b) : generateXml a = generateXml b := by
  unfold generateXml genTokens
  rw [h]

/-- C5: inserting a `SetAttrCommand` whose (tag, attribute, value) equals the
attribute's current in-force value produces exactly the same output string as
the sequence without that instruction — the balancer state is left entirely
unchanged, so the physical tag nesting is identical. -/
theorem c5_noop_setAttr (cs₁ cs₂ : List BCmd) (tag attr val : String)
    (hin : ∃ attrs, alookup (balRun initB cs₁).tags tag = some attrs ∧
      alookup attrs attr = some val) :
    generateXml (cs₁ ++ BCmd.setAttr tag attr val :: cs₂) =
      generateXml (cs₁ ++ cs₂) := by
  obtain ⟨attrs, hta, hav⟩ := hin
  have hset : setAttrT (balRun initB cs₁).tags tag attr val =
      ((balRun initB cs₁).tags, false) := by
    unfold setAttrT
    rw [hta]
    simp [Option.getD, hav]
  have hstep : balStep (balRun initB cs₁) (BCmd.setAttr tag attr val) =
      balRun initB cs₁ := by
    show { balRun initB cs₁ with
           tags := (setAttrT (balRun initB cs₁).tags tag attr val).1,
           tagsChanged := (balRun initB cs₁).tagsChanged ||
             (setAttrT (balRun initB cs₁).tags tag attr val).2 } = balRun initB cs₁
    rw [hset]
    simp
  apply generateXml_eq_of_run_eq
  rw [balRun_append, balRun_cons, hstep, ← balRun_append]

/-- C5 witness. -/
theorem c5_noop_witness :
    (∃ attrs, alookup (balRun initB
        [BCmd.setAttr "voice" "xml:lang" "fr"]).tags "voice" = some attrs ∧
      alookup attrs "xml:lang" = some "fr") ∧
    generateXml ([BCmd.setAttr "voice" "xml:lang" "fr"] ++
        BCmd.setAttr "voice" "xml:lang" "fr" :: [BCmd.text "x"]) =
      generateXml ([BCmd.setAttr "voice" "xml:lang" "fr"] ++ [BCmd.text "x"]) :=
  ⟨⟨[("xml:lang", "fr")], by decide, by decide⟩,
   c5_noop_setAttr [BCmd.setAttr "voice" "xml:lang" "fr"] [BCmd.text "x"]
     "voice" "xml:lang" "fr" ⟨[("xml:lang", "fr")], by decide, by decide⟩⟩

/-- C10: while an `EncloseTextCommand` is in force, the literal content of a
`StandAloneTagCommand` with truthy content is emitted wrapped in the
text-enclosing tag, nested inside the standalone tag: the step appends
`<tag ...><enc ...>content</enc></tag>` (after any pending flush). -/
theorem c10_standalone_enclosed (st : BState) (tag : String) (attrs : Attrs)
    (c t : String) (a : Attrs) (henc : st.tagEnclosingText = some (t, a))
    (ht : t ≠ "") (hc : c ≠ "") :
    (balStep st (BCmd.standAloneTag tag attrs (some c))).out =
      (outputTags st).out ++
        [Token.openT tag attrs, Token.openT t a, Token.textT c, Token.closeT t,
         Token.closeT tag] := by
  have henc' : (outputTags st).tagEnclosingText = some (t, a) := by
    unfold outputTags
    by_cases hch : st.tagsChanged
    · rw [if_pos hch]
      exact henc
    · rw [if_neg hch]
      exact henc
  have hct : contentTruthy (some c) = true := by
    simp [contentTruthy, hc]
  show (outputTags st).out ++
      (if contentTruthy (some c) then
        Token.openT tag attrs ::
          textToks (outputTags st).tagEnclosingText ((some c).getD "") ++
          [Token.closeT tag]
      else [Token.emptyT tag attrs]) = _
  rw [if_pos hct, henc']
  simp [textToks, ht]

/-- C10 witness. -/
theorem c10_standalone_witness :
    c10State.tagEnclosingText = some ("say-as", [("interpret-as", "characters")]) ∧
    (balStep c10State
      (BCmd.standAloneTag "phoneme" [("alphabet", "ipa"), ("ph", "k")]
        (some "cat"))).out =
      (outputTags c10State).out ++
        [Token.openT "phoneme" [("alphabet", "ipa"), ("ph", "k")],
         Token.openT "say-as" [("interpret-as", "characters")],
         Token.textT "cat", Token.closeT "say-as", Token.closeT "phoneme"] :=
  ⟨rfl,
   c10_standalone_enclosed c10State "phoneme" [("alphabet", "ipa"), ("ph", "k")]
     "cat" "say-as" [("interpret-as", "characters")] rfl (by decide) (by decide)⟩

/-- C4 (counterexample): for `PitchCommand` with multiplier `19/16` (a dyadic
rational, hence an exact binary float), the code emits `"118%"` —
`int(multiplier * 100)` truncates `118.75` toward zero — while the claimed
`round(multiplier * 100)` is `119`, so the claimed attribute value differs
from the emitted one. -/
theorem c4_trunc_counterexample :
    ssmlConvertCommand "en-US" (.pitch (19 / 16)) =
      some (BCmd.setAttr "prosody" "pitch" "118%") ∧
    round ((19 : ℚ) / 16 * 100) = 119 ∧
    intToStr 119 ++ "%" ≠ "118%" := by
  refine ⟨by decide, ?_, by decide⟩
  norm_num [round_eq]

/-- C4 (amended): for every Pitch, Rate or Volume command with multiplier not
equal to 1, the translator emits `SetAttr("prosody", attrName, v)` where `v`
is the decimal string of `multiplier * 100` truncated toward zero (Python
`int(...)`), followed by `"%"`, with attrName `"pitch"`/`"rate"`/`"volume"`
respectively. -/
theorem c4_prosody_value_amended (dl : String) (m : ℚ) (hm : m ≠ 1) :
    ssmlConvertCommand dl (.pitch m) =
      some (BCmd.setAttr "prosody" "pitch" (intToStr (truncQ (m * 100)) ++ "%")) ∧
    ssmlConvertCommand dl (.rate m) =
      some (BCmd.setAttr "prosody" "rate" (intToStr (truncQ (m * 100)) ++ "%")) ∧
    ssmlConvertCommand dl (.volume m) =
      some (BCmd.setAttr "prosody" "volume" (intToStr (truncQ (m * 100)) ++ "%")) := by
  refine ⟨?_, ?_, ?_⟩ <;>
    simp [ssmlConvertCommand, convertProsody, hm]

/-- C4 witness. -/
theorem c4_prosody_value_witness :
    ((3 : ℚ) / 2 ≠ 1) ∧
    ssmlConvertCommand "en-US" (.pitch (3 / 2)) =
      some (BCmd.setAttr "prosody" "pitch"
        (intToStr (truncQ ((3 : ℚ) / 2 * 100)) ++ "%")) :=
  ⟨by norm_num, (c4_prosody_value_amended "en-US" (3 / 2) (by norm_num)).1⟩

theorem generateBalancerCommandsAux_stop (dl : String) (ss₁ : List SpeechItem)
    (item : SpeechItem) (ss₂ : List SpeechItem)
    (h₁ : ∀ i ∈ ss₁, supportedItem dl i = true)
    (h : handlerlessCommand item = true) :
    generateBalancerCommandsAux (ssmlConvertCommand dl) (ss₁ ++ item :: ss₂) =
      ((generateBalancerCommandsAux (ssmlConvertCommand dl) ss₁).1,
       [LogEntry.unsupportedCommand item]) := by
  induction ss₁ with
  | nil =>
    cases item <;>
      simp_all [handlerlessCommand, generateBalancerCommandsAux, ssmlConvertCommand]
  | cons i ss₁' ih =>
    have hi : supportedItem dl i = true := h₁ i (List.mem_cons_self i ss₁')
    have h₁' : ∀ x ∈ ss₁', supportedItem dl x = true :=
      fun x hx => h₁ x (List.mem_cons_of_mem i hx)
    have ih' := ih h₁'
    cases i with
    | text s => simp [generateBalancerCommandsAux, ih']
    | index n => simp [generateBalancerCommandsAux, ssmlConvertCommand, ih']
    | characterMode b =>
      cases b <;> simp [generateBalancerCommandsAux, ssmlConvertCommand, ih']
    | langChange l => simp [generateBalancerCommandsAux, ssmlConvertCommand, ih']
    | brk n => simp [generateBalancerCommandsAux, ssmlConvertCommand, ih']
    | pitch m => simp [generateBalancerCommandsAux, ssmlConvertCommand, ih']
    | rate m => simp [generateBalancerCommandsAux, ssmlConvertCommand, ih']
    | volume m => simp [generateBalancerCommandsAux, ssmlConvertCommand, ih']
    | phoneme ipa fb => simp [generateBalancerCommandsAux, ssmlConvertCommand, ih']
    | callback n => simp [supportedItem, ssmlConvertCommand] at hi
    | other n => simp [supportedItem, ssmlConvertCommand] at hi

/-- C9: when a command with no translation handler is reached, the encode
translator stops: the generated balancer commands are exactly those for the
prefix before the unrecognised command (plus the root prologue), one warning
is logged, and no error entry is produced — the function returns normally. -/
theorem c9_unsupported_stops (dl : String) (ss₁ : List SpeechItem)
    (item : SpeechItem) (ss₂ : List SpeechItem)
    (h₁ : ∀ i ∈ ss₁, supportedItem dl i = true)
    (h : handlerlessCommand item = true) :
    ssmlBalancerCommands dl (ss₁ ++ item :: ss₂) =
      ((ssmlBalancerCommands dl ss₁).1, [LogEntry.unsupportedCommand item]) := by
  unfold ssmlBalancerCommands
  rw [generateBalancerCommandsAux_stop dl ss₁ item ss₂ h₁ h]

/-- C9 witness. -/
theorem c9_unsupported_witness :
    (∀ i ∈ ([SpeechItem.text "a", SpeechItem.brk 5] : List SpeechItem),
      supportedItem "en-US" i = true) ∧
    ssmlBalancerCommands "en-US"
        ([SpeechItem.text "a", SpeechItem.brk 5] ++
          SpeechItem.callback "cb" :: [SpeechItem.text "b"]) =
      ((ssmlBalancerCommands "en-US" [SpeechItem.text "a", SpeechItem.brk 5]).1,
       [LogEntry.unsupportedCommand (SpeechItem.callback "cb")]) :=
  ⟨by decide,
   c9_unsupported_stops "en-US" [SpeechItem.text "a", SpeechItem.brk 5]
     (SpeechItem.callback "cb") [SpeechItem.text "b"] (by decide) (by decide)⟩

/-- C8: decoding the specific document
`<speak><prosody pitch="120%">hi<break time="10ms"/></prosody></speak>`
yields exactly `[PitchCommand(1.2), "hi", BreakCommand(10), PitchCommand(1.0)]`
— closing the prosody scope re-emits the cached percentage attribute with the
multiplier forced to 1. -/
theorem c8_prosody_scenario :
    convertFromXml false
        "<speak><prosody pitch=\"120%\">hi<break time=\"10ms\"/></prosody></speak>" =
      .ok [.pitch (6 / 5), .text "hi", .brk 10, .pitch 1] := by
  rfl

theorem alookup_aset_self {α : Type} (l : List (String × α)) (k : String) (v : α) :
    alookup (aset l k v) k = some v := by
  induction l with
  | nil => simp [aset, alookup]
  | cons p t ih =>
    obtain ⟨k', v'⟩ := p
    by_cases h : k' = k
    · simp [aset, h, alookup]
    · simp [aset, h, alookup, ih]

theorem alookup_aset_ne {α : Type} (l : List (String × α)) (k k₀ : String) (v : α)
    (hne : k₀ ≠ k) : alookup (aset l k v) k₀ = alookup l k₀ := by
  induction l with
  | nil => simp [aset, alookup, Ne.symm hne]
  | cons p t ih =>
    obtain ⟨k', v'⟩ := p
    by_cases h : k' = k
    · subst h
      simp [aset, alookup, Ne.symm hne]
    · by_cases h0 : k' = k₀
      · simp [aset, h, alookup, h0, hne]
      · simp [aset, h, alookup, h0, ih]

theorem mem_aset {α : Type} {l : List (String × α)} {k : String} {v : α}
    {p : String × α} (h : p ∈ aset l k v) : p ∈ l ∨ p = (k, v) := by
  induction l with
  | nil => simpa [aset] using h
  | cons q t ih =>
    obtain ⟨k', v'⟩ := q
    by_cases hk : k' = k
    · simp only [aset, hk, if_pos rfl] at h
      rcases List.mem_cons.mp h with h1 | h1
      · exact Or.inr h1
      · exact Or.inl (List.mem_cons_of_mem _ h1)
    · simp only [aset, hk, if_neg hk] at h
      rcases List.mem_cons.mp h with h1 | h1
      · exact Or.inl (h1 ▸ List.mem_cons_self _ _)
      · rcases ih h1 with h2 | h2
        · exact Or.inl (List.mem_cons_of_mem _ h2)
        · exact Or.inr h2

theorem mem_keys_aset {α : Type} {l : List (String × α)} {k x : String} {v : α}
    (h : x ∈ (aset l k v).map Prod.fst) : x ∈ l.map Prod.fst ∨ x = k := by
  rcases List.mem_map.mp h with ⟨p, hp, hx⟩
  rcases mem_aset hp with h1 | h1
  · exact Or.inl (hx ▸ List.mem_map_of_mem Prod.fst h1)
  · subst h1
    exact Or.inr hx.symm

theorem keysNodup_aset {α : Type} {l : List (String × α)} (k : String) (v : α)
    (h : keysNodup l) : keysNodup (aset l k v) := by
  induction l with
  | nil => simp [aset, keysNodup]
  | cons p t ih =>
    obtain ⟨k', v'⟩ := p
    unfold keysNodup at h
    rw [List.map_cons, List.nodup_cons] at h
    by_cases hk : k' = k
    · subst hk
      unfold keysNodup
      have hset : aset ((k', v') :: t) k' v = (k', v) :: t := by simp [aset]
      rw [hset, List.map_cons, List.nodup_cons]
      exact h
    · unfold keysNodup
      simp only [aset, if_neg hk, List.map_cons, List.nodup_cons]
      refine ⟨?_, ih h.2⟩
      intro hmem
      rcases mem_keys_aset hmem with h1 | h1
      · exact h.1 h1
      · exact hk h1

theorem mem_adel {α : Type} {l : List (String × α)} {k : String} {p : String × α}
    (h : p ∈ adel l k) : p ∈ l := by
  induction l with
  | nil => simp [adel] at h
  | cons q t ih =>
    obtain ⟨k', v'⟩ := q
    by_cases hk : k' = k
    · simp only [adel, if_pos hk] at h
      exact List.mem_cons_of_mem _ h
    · simp only [adel, if_neg hk] at h
      rcases List.mem_cons.mp h with h1 | h1
      · exact h1 ▸ List.mem_cons_self _ _
      · exact List.mem_cons_of_mem _ (ih h1)

theorem keys_adel_sublist {α : Type} (l : List (String × α)) (k : String) :
    List.Sublist ((adel l k).map Prod.fst) (l.map Prod.fst) := by
  induction l with
  | nil => simp [adel]
  | cons q t ih =>
    obtain ⟨k', v'⟩ := q
    by_cases hk : k' = k
    · simp only [adel, if_pos hk, List.map_cons]
      exact List.Sublist.cons _ (List.Sublist.refl _)
    · simp only [adel, if_neg hk, List.map_cons]
      exact ih.cons₂ k'

theorem keysNodup_adel {α : Type} {l : List (String × α)} (k : String)
    (h : keysNodup l) : keysNodup (adel l k) :=
  h.sublist (keys_adel_sublist l k)

theorem alookup_eq_none_of_not_mem {α : Type} {l : List (String × α)} {k : String}
    (h : k ∉ l.map Prod.fst) : alookup l k = none := by
  induction l with
  | nil => simp [alookup]
  | cons p t ih =>
    obtain ⟨k', v'⟩ := p
    rw [List.map_cons, List.mem_cons] at h
    push_neg at h
    have h1 : k' ≠ k := Ne.symm h.1
    simp [alookup, h1, ih h.2]

theorem mem_of_alookup {α : Type} {l : List (String × α)} {k : String} {v : α}
    (h : alookup l k = some v) : (k, v) ∈ l := by
  induction l with
  | nil => simp [alookup] at h
  | cons p t ih =>
    obtain ⟨k', v'⟩ := p
    by_cases hk : k' = k
    · subst hk
      have he : alookup ((k', v') :: t) k' = some v' := by simp [alookup]
      rw [he, Option.some.injEq] at h
      subst h
      exact List.mem_cons_self _ _
    · simp only [alookup, if_neg hk] at h
      exact List.mem_cons_of_mem _ (ih h)

theorem alookup_of_mem_nodup {α : Type} {l : List (String × α)} {k : String} {v : α}
    (hnd : keysNodup l) (h : (k, v) ∈ l) : alookup l k = some v := by
  induction l with
  | nil => simp at h
  | cons p t ih =>
    obtain ⟨k', v'⟩ := p
    unfold keysNodup at hnd
    rw [List.map_cons, List.nodup_cons] at hnd
    rcases List.mem_cons.mp h with h1 | h1
    · have h2 : k = k' ∧ v = v' := by simpa using h1
      obtain ⟨rfl, rfl⟩ := h2
      simp [alookup]
    · have hk : k' ≠ k := by
        intro he
        subst he
        have hmem : k' ∈ List.map Prod.fst t := List.mem_map_of_mem Prod.fst h1
        exact hnd.1 hmem
      simp [alookup, hk, ih hnd.2 h1]

theorem alookup_isSome_of_mem {α : Type} {l : List (String × α)} {k : String} {v : α}
    (h : (k, v) ∈ l) : ∃ v', alookup l k = some v' := by
  induction l with
  | nil => simp at h
  | cons p t ih =>
    obtain ⟨k', v'⟩ := p
    by_cases hk : k' = k
    · exact ⟨v', by simp [alookup, hk]⟩
    · rcases List.mem_cons.mp h with h1 | h1
      · exact absurd (congrArg Prod.fst h1.symm) hk
      · rcases ih h1 with ⟨v'', hv⟩
        exact ⟨v'', by simp [alookup, hk, hv]⟩

theorem alookup_adel_ne {α : Type} (l : List (String × α)) (k k₀ : String)
    (hne : k₀ ≠ k) : alookup (adel l k) k₀ = alookup l k₀ := by
  induction l with
  | nil => simp [adel]
  | cons p t ih =>
    obtain ⟨k', v'⟩ := p
    by_cases hk : k' = k
    · subst hk
      simp [adel, alookup, Ne.symm hne]
    · by_cases h0 : k' = k₀
      · simp [adel, hk, alookup, h0, hne]
      · simp [adel, hk, alookup, h0, ih]

theorem tagsWF_setAttrT (tags : List (String × Attrs)) (tag attr val : String)
    (h : tagsWF tags) : tagsWF (setAttrT tags tag attr val).1 := by
  unfold setAttrT
  split
  · show tagsWF (aset tags tag (aset ((alookup tags tag).getD []) attr val))
    refine ⟨keysNodup_aset _ _ h.1, ?_⟩
    intro p hp
    rcases mem_aset hp with h1 | h1
    · exact h.2 p h1
    · subst h1
      apply keysNodup_aset
      cases hl : alookup tags tag with
      | none => simp [keysNodup]
      | some attrs =>
        have h2 := h.2 (tag, attrs) (mem_of_alookup hl)
        simpa using h2
  · exact h

theorem keysNodup_getD (tags : List (String × Attrs)) (tag : String)
    (h : tagsWF tags) : keysNodup ((alookup tags tag).getD []) := by
  cases hl : alookup tags tag with
  | none => simp [keysNodup]
  | some attrs =>
    have h2 := h.2 (tag, attrs) (mem_of_alookup hl)
    simpa using h2

theorem tagsWF_delAttrT (tags : List (String × Attrs)) (tag attr : String)
    (h : tagsWF tags) : tagsWF (delAttrT tags tag attr).1 := by
  unfold delAttrT
  split_ifs with h1 h2 h3
  · exact h
  · exact h
  · exact ⟨keysNodup_adel _ h.1, fun p hp => h.2 p (mem_adel hp)⟩
  · refine ⟨keysNodup_aset _ _ h.1, ?_⟩
    intro p hp
    rcases mem_aset hp with h4 | h4
    · exact h.2 p h4
    · subst h4
      exact keysNodup_adel _ (keysNodup_getD tags tag h)

theorem outputTags_tags (st : BState) : (outputTags st).tags = st.tags := by
  unfold outputTags
  split <;> rfl

theorem outputTags_enc (st : BState) :
    (outputTags st).tagEnclosingText = st.tagEnclosingText := by
  unfold outputTags
  split <;> rfl

theorem tagsWF_balStep (st : BState) (c : BCmd) (h : tagsWF st.tags) :
    tagsWF (balStep st c).tags := by
  cases c with
  | text s =>
    show tagsWF (outputTags st).tags
    rw [outputTags_tags]
    exact h
  | encloseAll t a => exact h
  | setAttr tag attr val => exact tagsWF_setAttrT _ _ _ _ h
  | delAttr tag attr => exact tagsWF_delAttrT _ _ _ h
  | encloseText tag attrs => exact h
  | stopEnclosingText => exact h
  | standAloneTag tag attrs content =>
    show tagsWF (outputTags st).tags
    rw [outputTags_tags]
    exact h

theorem tagsWF_balRun (cs : List BCmd) (st : BState) (h : tagsWF st.tags) :
    tagsWF (balRun st cs).tags := by
  induction cs generalizing st with
  | nil => exact h
  | cons c rest ih => exact ih (balStep st c) (tagsWF_balStep st c h)

theorem encSafe_balStep (st : BState) (c : BCmd)
    (hst : ∀ t a', st.tagEnclosingText = some (t, a') → t = "say-as")
    (hc : ∀ tag attrs, c = BCmd.encloseText tag attrs → tag = "say-as") :
    ∀ t a', (balStep st c).tagEnclosingText = some (t, a') → t = "say-as" := by
  cases c with
  | text s =>
    intro t a' he
    exact hst t a' ((outputTags_enc st) ▸ he)
  | encloseAll tg a => exact hst
  | setAttr tag attr val => exact hst
  | delAttr tag attr => exact hst
  | encloseText tag attrs =>
    intro t a' he
    have h1 : tag = t := by
      have : (some (tag, attrs) : Option (String × Attrs)) = some (t, a') := he
      simpa using congrArg (Option.map Prod.fst) this
    exact h1 ▸ hc tag attrs rfl
  | stopEnclosingText =>
    intro t a' he
    exact absurd he (by simp [balStep])
  | standAloneTag tag attrs content =>
    intro t a' he
    exact hst t a' ((outputTags_enc st) ▸ he)

theorem encSafe_balRun (cs : List BCmd) (st : BState)
    (hst : ∀ t a', st.tagEnclosingText = some (t, a') → t = "say-as")
    (hcs : ∀ tag attrs, BCmd.encloseText tag attrs ∈ cs → tag = "say-as") :
    ∀ t a', (balRun st cs).tagEnclosingText = some (t, a') → t = "say-as" := by
  induction cs generalizing st with
  | nil => exact hst
  | cons c rest ih =>
    exact ih (balStep st c)
      (encSafe_balStep st c hst
        (fun tag attrs he => hcs tag attrs (he ▸ List.mem_cons_self c rest)))
      (fun tag attrs hm => hcs tag attrs (List.mem_cons_of_mem c hm))

theorem alookup_adel_self {α : Type} {l : List (String × α)} (k : String)
    (hnd : keysNodup l) : alookup (adel l k) k = none := by
  induction l with
  | nil => simp [adel, alookup]
  | cons p t ih =>
    obtain ⟨k', v'⟩ := p
    unfold keysNodup at hnd
    rw [List.map_cons, List.nodup_cons] at hnd
    by_cases hk : k' = k
    · subst hk
      simp only [adel, if_pos rfl]
      exact alookup_eq_none_of_not_mem hnd.1
    · simp [adel, hk, alookup, ih hnd.2]

theorem prosFree_getD (a : String) (tags : List (String × Attrs))
    (htags : ∀ attrs, alookup tags "prosody" = some attrs → alookup attrs a = none) :
    alookup ((alookup tags "prosody").getD []) a = none := by
  cases hl : alookup tags "prosody" with
  | none => simp [alookup]
  | some attrs =>
    simpa using htags attrs hl

theorem prosFree_setAttrT (a : String) (tags : List (String × Attrs))
    (tag attr val : String)
    (htags : ∀ attrs, alookup tags "prosody" = some attrs → alookup attrs a = none)
    (hc : (!(tag = "prosody" && attr = a)) = true) :
    ∀ attrs, alookup (setAttrT tags tag attr val).1 "prosody" = some attrs →
      alookup attrs a = none := by
  intro attrs hl
  unfold setAttrT at hl
  split_ifs at hl with hcond
  · by_cases htag : tag = "prosody"
    · subst htag
      rw [alookup_aset_self, Option.some.injEq] at hl
      subst hl
      have hne : attr ≠ a := by
        intro ha
        subst ha
        simp at hc
      rw [alookup_aset_ne _ _ _ _ (Ne.symm hne)]
      exact prosFree_getD a tags htags
    · rw [alookup_aset_ne _ _ _ _ (fun he => htag he.symm)] at hl
      exact htags attrs hl
  · exact htags attrs hl

theorem prosFree_delAttrT (a : String) (tags : List (String × Attrs))
    (tag attr : String) (hWF : tagsWF tags)
    (htags : ∀ attrs, alookup tags "prosody" = some attrs → alookup attrs a = none) :
    ∀ attrs, alookup (delAttrT tags tag attr).1 "prosody" = some attrs →
      alookup attrs a = none := by
  intro attrs hl
  unfold delAttrT at hl
  split_ifs at hl with h1 h2 h3
  · exact htags attrs hl
  · exact htags attrs hl
  · by_cases htag : tag = "prosody"
    · subst htag
      rw [alookup_adel_self _ hWF.1] at hl
      exact absurd hl (by simp)
    · rw [alookup_adel_ne _ _ _ (fun he => htag he.symm)] at hl
      exact htags attrs hl
  · by_cases htag : tag = "prosody"
    · subst htag
      rw [alookup_aset_self, Option.some.injEq] at hl
      subst hl
      by_cases ha : attr = a
      · subst ha
        exact alookup_adel_self _ (keysNodup_getD tags "prosody" hWF)
      · rw [alookup_adel_ne _ _ _ (fun he => ha he.symm)]
        exact prosFree_getD a tags htags
    · rw [alookup_aset_ne _ _ _ _ (fun he => htag he.symm)] at hl
      exact htags attrs hl

theorem prosFree_textToks (a : String) (enc : Option (String × Attrs)) (s : String)
    (henc : ∀ t at', enc = some (t, at') → t = "prosody" → alookup at' a = none) :
    ∀ tok ∈ textToks enc s, tokAttrAbsent a tok = true := by
  intro tok htok
  match enc with
  | none =>
    simp only [textToks, List.mem_singleton] at htok
    subst htok
    rfl
  | some (t, at') =>
    by_cases ht : t = ""
    · simp only [textToks, if_pos ht, List.mem_singleton] at htok
      subst htok
      rfl
    · simp only [textToks, if_neg ht, List.mem_cons, List.mem_singleton] at htok
      rcases htok with h1 | h1 | h1
      · subst h1
        by_cases hp : t = "prosody"
        · have h2 := henc t at' rfl hp
          simp [tokAttrAbsent, hp, h2]
        · simp [tokAttrAbsent, hp]
      · subst h1
        rfl
      · rcases h1 with h1 | h1
        · subst h1
          rfl
        · simp at h1

theorem prosFree_flushToks (a : String) (st : BState) (hWF : tagsWF st.tags)
    (htags : ∀ attrs, alookup st.tags "prosody" = some attrs →
      alookup attrs a = none) :
    ∀ tok ∈ flushToks st, tokAttrAbsent a tok = true := by
  intro tok htok
  unfold flushToks at htok
  rcases List.mem_append.mp htok with h1 | h1
  · rcases List.mem_map.mp h1 with ⟨t, ht, rfl⟩
    rfl
  · rcases List.mem_map.mp h1 with ⟨p, hp, rfl⟩
    obtain ⟨t, attrs⟩ := p
    by_cases hp2 : t = "prosody"
    · subst hp2
      have hlk : alookup st.tags "prosody" = some attrs :=
        alookup_of_mem_nodup hWF.1 hp
      have h2 := htags attrs hlk
      simp [tokAttrAbsent, h2]
    · simp [tokAttrAbsent, hp2]

theorem prosFree_outputTags_out (a : String) (st : BState) (hWF : tagsWF st.tags)
    (htags : ∀ attrs, alookup st.tags "prosody" = some attrs →
      alookup attrs a = none) :
    ∃ Δ, (outputTags st).out = st.out ++ Δ ∧
      ∀ tok ∈ Δ, tokAttrAbsent a tok = true := by
  unfold outputTags
  split
  · exact ⟨flushToks st, rfl, prosFree_flushToks a st hWF htags⟩
  · exact ⟨[], by simp, by simp⟩

theorem prosFree_balStep (a : String) (st : BState) (c : BCmd)
    (hst : prosFreeState a st) (hc : cmdProsFree a c = true) :
    (∃ Δ, (balStep st c).out = st.out ++ Δ ∧
      ∀ tok ∈ Δ, tokAttrAbsent a tok = true) ∧
    prosFreeState a (balStep st c) := by
  obtain ⟨hWF, htags, henc⟩ := hst
  have hstP : ∀ t at', (outputTags st).tagEnclosingText = some (t, at') →
      t = "prosody" → alookup at' a = none := by
    intro t at' he
    exact henc t at' ((outputTags_enc st) ▸ he)
  cases c with
  | text s =>
    obtain ⟨Δ₁, hΔ₁, hΔ₁f⟩ := prosFree_outputTags_out a st hWF htags
    constructor
    · refine ⟨Δ₁ ++ textToks (outputTags st).tagEnclosingText s, ?_, ?_⟩
      · show (outputTags st).out ++ textToks (outputTags st).tagEnclosingText s = _
        rw [hΔ₁, List.append_assoc]
      · intro tok htok
        rcases List.mem_append.mp htok with h1 | h1
        · exact hΔ₁f tok h1
        · exact prosFree_textToks a _ s hstP tok h1
    · refine ⟨?_, ?_, ?_⟩
      · show tagsWF (outputTags st).tags
        rw [outputTags_tags]
        exact hWF
      · show ∀ attrs, alookup (outputTags st).tags "prosody" = some attrs →
          alookup attrs a = none
        rw [outputTags_tags]
        exact htags
      · show ∀ t at', (outputTags st).tagEnclosingText = some (t, at') →
          t = "prosody" → alookup at' a = none
        exact hstP
  | encloseAll tg at' =>
    constructor
    · refine ⟨[Token.openT tg at'], rfl, ?_⟩
      intro tok htok
      rw [List.mem_singleton] at htok
      subst htok
      exact hc
    · exact ⟨hWF, htags, henc⟩
  | setAttr tag attr val =>
    refine ⟨⟨[], by simp [balStep], by simp⟩, tagsWF_setAttrT _ _ _ _ hWF,
      prosFree_setAttrT a st.tags tag attr val htags hc, henc⟩
  | delAttr tag attr =>
    refine ⟨⟨[], by simp [balStep], by simp⟩, tagsWF_delAttrT _ _ _ hWF,
      prosFree_delAttrT a st.tags tag attr hWF htags, henc⟩
  | encloseText tag attrs =>
    refine ⟨⟨[], by simp [balStep], by simp⟩, hWF, htags, ?_⟩
    intro t at' he hp
    have h1 : tag = t ∧ attrs = at' := by simpa [balStep] using he
    have hc2 : (!(tag = "prosody" && (alookup attrs a).isSome)) = true := hc
    rw [h1.1, h1.2, hp] at hc2
    cases hlk : alookup at' a with
    | none => rfl
    | some v =>
      rw [hlk] at hc2
      simp at hc2
  | stopEnclosingText =>
    refine ⟨⟨[], by simp [balStep], by simp⟩, hWF, htags, ?_⟩
    intro t at' he
    exact absurd he (by simp [balStep])
  | standAloneTag tag attrs content =>
    obtain ⟨Δ₁, hΔ₁, hΔ₁f⟩ := prosFree_outputTags_out a st hWF htags
    constructor
    · refine ⟨Δ₁ ++ (if contentTruthy content then
          Token.openT tag attrs ::
            textToks (outputTags st).tagEnclosingText (content.getD "") ++
            [Token.closeT tag]
        else [Token.emptyT tag attrs]), ?_, ?_⟩
      · show (outputTags st).out ++ _ = _
        rw [hΔ₁, List.append_assoc]
      · intro tok htok
        rcases List.mem_append.mp htok with h1 | h1
        · exact hΔ₁f tok h1
        · by_cases hct : contentTruthy content
          · rw [if_pos hct] at h1
            rcases List.mem_cons.mp h1 with h2 | h2
            · subst h2
              exact hc
            · rcases List.mem_append.mp h2 with h3 | h3
              · exact prosFree_textToks a _ _ hstP tok h3
              · rw [List.mem_singleton] at h3
                subst h3
                rfl
          · rw [if_neg hct, List.mem_singleton] at h1
            subst h1
            exact hc
    · refine ⟨?_, ?_, ?_⟩
      · show tagsWF (outputTags st).tags
        rw [outputTags_tags]
        exact hWF
      · show ∀ attrs', alookup (outputTags st).tags "prosody" = some attrs' →
          alookup attrs' a = none
        rw [outputTags_tags]
        exact htags
      · show ∀ t at', (outputTags st).tagEnclosingText = some (t, at') →
          t = "prosody" → alookup at' a = none
        exact hstP

theorem prosFree_balRun (a : String) (cs : List BCmd) (st : BState)
    (hst : prosFreeState a st) (hcs : ∀ c ∈ cs, cmdProsFree a c = true) :
    (∃ Δ, (balRun st cs).out = st.out ++ Δ ∧
      ∀ tok ∈ Δ, tokAttrAbsent a tok = true) ∧
    prosFreeState a (balRun st cs) := by
  induction cs generalizing st with
  | nil => exact ⟨⟨[], by simp [balRun], by simp⟩, hst⟩
  | cons c rest ih =>
    obtain ⟨⟨Δ₁, h1, h1f⟩, hst'⟩ :=
      prosFree_balStep a st c hst (hcs c (List.mem_cons_self c rest))
    obtain ⟨⟨Δ₂, h2, h2f⟩, hst''⟩ :=
      ih (balStep st c) hst' (fun x hx => hcs x (List.mem_cons_of_mem c hx))
    refine ⟨⟨Δ₁ ++ Δ₂, ?_, ?_⟩, hst''⟩
    · rw [balRun_cons, h2, h1, List.append_assoc]
    · intro tok htok
      rcases List.mem_append.mp htok with hm | hm
      · exact h1f tok hm
      · exact h2f tok hm

theorem aux_cons_text (conv : SpeechItem → Option BCmd) (s : String)
    (rest : List SpeechItem) :
    generateBalancerCommandsAux conv (SpeechItem.text s :: rest) =
      (BCmd.text s :: (generateBalancerCommandsAux conv rest).1,
       (generateBalancerCommandsAux conv rest).2) := rfl

theorem aux_cons_none (conv : SpeechItem → Option BCmd) (item : SpeechItem)
    (rest : List SpeechItem) (hnt : ∀ s, item ≠ SpeechItem.text s)
    (hcv : conv item = none) :
    generateBalancerCommandsAux conv (item :: rest) =
      ([], [LogEntry.unsupportedCommand item]) := by
  cases item with
  | text s => exact absurd rfl (hnt s)
  | index n => simp [generateBalancerCommandsAux, hcv]
  | characterMode b => simp [generateBalancerCommandsAux, hcv]
  | langChange l => simp [generateBalancerCommandsAux, hcv]
  | brk t => simp [generateBalancerCommandsAux, hcv]
  | pitch m => simp [generateBalancerCommandsAux, hcv]
  | rate m => simp [generateBalancerCommandsAux, hcv]
  | volume m => simp [generateBalancerCommandsAux, hcv]
  | phoneme ip fb => simp [generateBalancerCommandsAux, hcv]
  | callback n => simp [generateBalancerCommandsAux, hcv]
  | other n => simp [generateBalancerCommandsAux, hcv]

theorem aux_cons_some (conv : SpeechItem → Option BCmd) (item : SpeechItem)
    (rest : List SpeechItem) (c0 : BCmd) (hnt : ∀ s, item ≠ SpeechItem.text s)
    (hcv : conv item = some c0) :
    generateBalancerCommandsAux conv (item :: rest) =
      (c0 :: (generateBalancerCommandsAux conv rest).1,
       (generateBalancerCommandsAux conv rest).2) := by
  cases item with
  | text s => exact absurd rfl (hnt s)
  | index n => simp [generateBalancerCommandsAux, hcv]
  | characterMode b => simp [generateBalancerCommandsAux, hcv]
  | langChange l => simp [generateBalancerCommandsAux, hcv]
  | brk t => simp [generateBalancerCommandsAux, hcv]
  | pitch m => simp [generateBalancerCommandsAux, hcv]
  | rate m => simp [generateBalancerCommandsAux, hcv]
  | volume m => simp [generateBalancerCommandsAux, hcv]
  | phoneme ip fb => simp [generateBalancerCommandsAux, hcv]
  | callback n => simp [generateBalancerCommandsAux, hcv]
  | other n => simp [generateBalancerCommandsAux, hcv]

theorem mem_aux_commands (conv : SpeechItem → Option BCmd) (ss : List SpeechItem) :
    ∀ c ∈ (generateBalancerCommandsAux conv ss).1,
      (∃ s, c = BCmd.text s) ∨ ∃ i ∈ ss, conv i = some c := by
  induction ss with
  | nil =>
    intro c hc
    simp [generateBalancerCommandsAux] at hc
  | cons i rest ih =>
    intro c hc
    by_cases hnt : ∀ s, i ≠ SpeechItem.text s
    · cases hcv : conv i with
      | none =>
        rw [aux_cons_none conv i rest hnt hcv] at hc
        simp at hc
      | some c0 =>
        rw [aux_cons_some conv i rest c0 hnt hcv] at hc
        rcases List.mem_cons.mp hc with h1 | h1
        · subst h1
          exact Or.inr ⟨i, List.mem_cons_self i rest, hcv⟩
        · rcases ih c h1 with h2 | ⟨i', hi', hc'⟩
          · exact Or.inl h2
          · exact Or.inr ⟨i', List.mem_cons_of_mem _ hi', hc'⟩
    · push_neg at hnt
      obtain ⟨s, rfl⟩ := hnt
      rw [aux_cons_text conv s rest] at hc
      rcases List.mem_cons.mp hc with h1 | h1
      · exact Or.inl ⟨s, h1⟩
      · rcases ih c h1 with h2 | ⟨i', hi', hc'⟩
        · exact Or.inl h2
        · exact Or.inr ⟨i', List.mem_cons_of_mem _ hi', hc'⟩

theorem aux_append_supported (dl : String) (ss₁ ss₂ : List SpeechItem)
    (h₁ : ∀ i ∈ ss₁, supportedItem dl i = true) :
    (generateBalancerCommandsAux (ssmlConvertCommand dl) (ss₁ ++ ss₂)).1 =
      (generateBalancerCommandsAux (ssmlConvertCommand dl) ss₁).1 ++
      (generateBalancerCommandsAux (ssmlConvertCommand dl) ss₂).1 := by
  induction ss₁ with
  | nil => simp [generateBalancerCommandsAux]
  | cons i rest ih =>
    have hi := h₁ i (List.mem_cons_self i rest)
    have h₁' : ∀ x ∈ rest, supportedItem dl x = true :=
      fun x hx => h₁ x (List.mem_cons_of_mem i hx)
    rw [List.cons_append]
    by_cases hnt : ∀ s, i ≠ SpeechItem.text s
    · cases hcv : ssmlConvertCommand dl i with
      | none =>
        exfalso
        cases i with
        | text s => exact (hnt s) rfl
        | index n => simp [supportedItem, hcv] at hi
        | characterMode b => simp [supportedItem, hcv] at hi
        | langChange l => simp [supportedItem, hcv] at hi
        | brk t => simp [supportedItem, hcv] at hi
        | pitch m => simp [supportedItem, hcv] at hi
        | rate m => simp [supportedItem, hcv] at hi
        | volume m => simp [supportedItem, hcv] at hi
        | phoneme ip fb => simp [supportedItem, hcv] at hi
        | callback n => simp [supportedItem, hcv] at hi
        | other n => simp [supportedItem, hcv] at hi
      | some c0 =>
        rw [aux_cons_some _ i (rest ++ ss₂) c0 hnt hcv,
          aux_cons_some _ i rest c0 hnt hcv]
        show c0 :: (generateBalancerCommandsAux (ssmlConvertCommand dl)
          (rest ++ ss₂)).1 = _
        rw [ih h₁']
        simp
    · push_neg at hnt
      obtain ⟨s, rfl⟩ := hnt
      rw [aux_cons_text _ s (rest ++ ss₂), aux_cons_text _ s rest]
      show BCmd.text s :: (generateBalancerCommandsAux (ssmlConvertCommand dl)
        (rest ++ ss₂)).1 = _
      rw [ih h₁']
      simp

theorem ssmlCmds_append (dl : String) (ss₁ ss₂ : List SpeechItem)
    (h₁ : ∀ i ∈ ss₁, supportedItem dl i = true) :
    ssmlCmds dl (ss₁ ++ ss₂) =
      ssmlCmds dl ss₁ ++
      (generateBalancerCommandsAux (ssmlConvertCommand dl) ss₂).1 := by
  unfold ssmlCmds ssmlBalancerCommands
  show BCmd.encloseAll "speak" (speakAttrs dl) :: _ = _
  rw [aux_append_supported dl ss₁ ss₂ h₁]
  simp

theorem ssmlConvert_encloseText_sayAs (dl : String) (i : SpeechItem) (tag : String)
    (attrs : Attrs)
    (h : ssmlConvertCommand dl i = some (BCmd.encloseText tag attrs)) :
    tag = "say-as" := by
  cases i with
  | text s => simp [ssmlConvertCommand] at h
  | index n => simp [ssmlConvertCommand] at h
  | characterMode b =>
    cases b with
    | true =>
      simp [ssmlConvertCommand] at h
      first
      | exact h.1
      | exact h.1.symm
    | false => simp [ssmlConvertCommand] at h
  | langChange l => simp [ssmlConvertCommand] at h
  | brk t => simp [ssmlConvertCommand] at h
  | pitch m =>
    simp only [ssmlConvertCommand, convertProsody, Option.some.injEq] at h
    split_ifs at h
  | rate m =>
    simp only [ssmlConvertCommand, convertProsody, Option.some.injEq] at h
    split_ifs at h
  | volume m =>
    simp only [ssmlConvertCommand, convertProsody, Option.some.injEq] at h
    split_ifs at h
  | phoneme ip fb => simp [ssmlConvertCommand] at h
  | callback n => simp [ssmlConvertCommand] at h
  | other n => simp [ssmlConvertCommand] at h

theorem noProsody_setAttrT (tags : List (String × Attrs)) (tag attr val : String)
    (htags : alookup tags "prosody" = none) (hc : (!(tag = "prosody")) = true) :
    alookup (setAttrT tags tag attr val).1 "prosody" = none := by
  have htagne : tag ≠ "prosody" := by
    intro he
    rw [he] at hc
    simp at hc
  unfold setAttrT
  split_ifs with h1
  · show alookup (aset tags tag (aset ((alookup tags tag).getD []) attr val))
      "prosody" = none
    rw [alookup_aset_ne _ _ _ _ (Ne.symm htagne)]
    exact htags
  · exact htags

theorem noProsody_delAttrT (tags : List (String × Attrs)) (tag attr : String)
    (htags : alookup tags "prosody" = none) :
    alookup (delAttrT tags tag attr).1 "prosody" = none := by
  by_cases htag : tag = "prosody"
  · subst htag
    have h : delAttrT tags "prosody" attr = (tags, false) := by
      unfold delAttrT
      rw [htags]
      rfl
    rw [h]
    exact htags
  · unfold delAttrT
    split_ifs with h1 h2 h3
    · exact htags
    · exact htags
    · show alookup (adel tags tag) "prosody" = none
      rw [alookup_adel_ne _ _ _ (Ne.symm htag)]
      exact htags
    · show alookup (aset tags tag (adel ((alookup tags tag).getD []) attr))
        "prosody" = none
      rw [alookup_aset_ne _ _ _ _ (Ne.symm htag)]
      exact htags

theorem noProsody_textToks (enc : Option (String × Attrs)) (s : String)
    (henc : ∀ t at', enc = some (t, at') → t ≠ "prosody") :
    ∀ tok ∈ textToks enc s, tokNotProsody tok = true := by
  intro tok htok
  match enc with
  | none =>
    simp only [textToks, List.mem_singleton] at htok
    subst htok
    rfl
  | some (t, at') =>
    by_cases ht : t = ""
    · simp only [textToks, if_pos ht, List.mem_singleton] at htok
      subst htok
      rfl
    · simp only [textToks, if_neg ht, List.mem_cons, List.mem_singleton] at htok
      rcases htok with h1 | h1 | h1
      · subst h1
        simp [tokNotProsody, henc t at' rfl]
      · subst h1
        rfl
      · rcases h1 with h1 | h1
        · subst h1
          rfl
        · simp at h1

theorem noProsody_flushToks (st : BState)
    (htags : alookup st.tags "prosody" = none) :
    ∀ tok ∈ flushToks st, tokNotProsody tok = true := by
  intro tok htok
  unfold flushToks at htok
  rcases List.mem_append.mp htok with h1 | h1
  · rcases List.mem_map.mp h1 with ⟨t, ht, rfl⟩
    rfl
  · rcases List.mem_map.mp h1 with ⟨p, hp, rfl⟩
    obtain ⟨t, attrs⟩ := p
    by_cases hp2 : t = "prosody"
    · subst hp2
      rcases alookup_isSome_of_mem hp with ⟨v', hv⟩
      rw [htags] at hv
      exact absurd hv (by simp)
    · simp [tokNotProsody, hp2]

theorem noProsody_outputTags_out (st : BState)
    (htags : alookup st.tags "prosody" = none) :
    ∃ Δ, (outputTags st).out = st.out ++ Δ ∧
      ∀ tok ∈ Δ, tokNotProsody tok = true := by
  unfold outputTags
  split
  · exact ⟨flushToks st, rfl, noProsody_flushToks st htags⟩
  · exact ⟨[], by simp, by simp⟩

theorem noProsody_balStep (st : BState) (c : BCmd)
    (hst : noProsodyState st) (hc : cmdNotProsody c = true) :
    (∃ Δ, (balStep st c).out = st.out ++ Δ ∧
      ∀ tok ∈ Δ, tokNotProsody tok = true) ∧
    noProsodyState (balStep st c) := by
  obtain ⟨htags, henc⟩ := hst
  have hstP : ∀ t at', (outputTags st).tagEnclosingText = some (t, at') →
      t ≠ "prosody" := by
    intro t at' he
    exact henc t at' ((outputTags_enc st) ▸ he)
  cases c with
  | text s =>
    obtain ⟨Δ₁, hΔ₁, hΔ₁f⟩ := noProsody_outputTags_out st htags
    constructor
    · refine ⟨Δ₁ ++ textToks (outputTags st).tagEnclosingText s, ?_, ?_⟩
      · show (outputTags st).out ++ textToks (outputTags st).tagEnclosingText s = _
        rw [hΔ₁, List.append_assoc]
      · intro tok htok
        rcases List.mem_append.mp htok with h1 | h1
        · exact hΔ₁f tok h1
        · exact noProsody_textToks _ s hstP tok h1
    · refine ⟨?_, ?_⟩
      · show alookup (outputTags st).tags "prosody" = none
        rw [outputTags_tags]
        exact htags
      · show ∀ t at', (outputTags st).tagEnclosingText = some (t, at') →
          t ≠ "prosody"
        exact hstP
  | encloseAll tg at' =>
    constructor
    · refine ⟨[Token.openT tg at'], rfl, ?_⟩
      intro tok htok
      rw [List.mem_singleton] at htok
      subst htok
      exact hc
    · exact ⟨htags, henc⟩
  | setAttr tag attr val =>
    exact ⟨⟨[], by simp [balStep], by simp⟩,
      noProsody_setAttrT st.tags tag attr val htags hc, henc⟩
  | delAttr tag attr =>
    exact ⟨⟨[], by simp [balStep], by simp⟩,
      noProsody_delAttrT st.tags tag attr htags, henc⟩
  | encloseText tag attrs =>
    refine ⟨⟨[], by simp [balStep], by simp⟩, htags, ?_⟩
    intro t at' he
    have h1 : tag = t ∧ attrs = at' := by simpa [balStep] using he
    have hc2 : (!(tag = "prosody")) = true := hc
    rw [h1.1] at hc2
    intro hp
    rw [hp] at hc2
    simp at hc2
  | stopEnclosingText =>
    refine ⟨⟨[], by simp [balStep], by simp⟩, htags, ?_⟩
    intro t at' he
    exact absurd he (by simp [balStep])
  | standAloneTag tag attrs content =>
    obtain ⟨Δ₁, hΔ₁, hΔ₁f⟩ := noProsody_outputTags_out st htags
    constructor
    · refine ⟨Δ₁ ++ (if contentTruthy content then
          Token.openT tag attrs ::
            textToks (outputTags st).tagEnclosingText (content.getD "") ++
            [Token.closeT tag]
        else [Token.emptyT tag attrs]), ?_, ?_⟩
      · show (outputTags st).out ++ _ = _
        rw [hΔ₁, List.append_assoc]
      · intro tok htok
        rcases List.mem_append.mp htok with h1 | h1
        · exact hΔ₁f tok h1
        · by_cases hct : contentTruthy content
          · rw [if_pos hct] at h1
            rcases List.mem_cons.mp h1 with h2 | h2
            · subst h2
              exact hc
            · rcases List.mem_append.mp h2 with h3 | h3
              · exact noProsody_textToks _ _ hstP tok h3
              · rw [List.mem_singleton] at h3
                subst h3
                rfl
          · rw [if_neg hct, List.mem_singleton] at h1
            subst h1
            exact hc
    · refine ⟨?_, ?_⟩
      · show alookup (outputTags st).tags "prosody" = none
        rw [outputTags_tags]
        exact htags
      · show ∀ t at', (outputTags st).tagEnclosingText = some (t, at') →
          t ≠ "prosody"
        exact hstP

theorem ssmlConvert_cmdProsFree (dl : String) (k : ProsKind) (i : SpeechItem)
    (c : BCmd)
    (hk : match prosOf i with
      | some (k', m) => k' = k → m = 1
      | none => True)
    (h : ssmlConvertCommand dl i = some c) :
    cmdProsFree (prosAttrName k) c = true := by
  cases i with
  | text s => simp [ssmlConvertCommand] at h
  | index n =>
    simp only [ssmlConvertCommand, Option.some.injEq] at h
    subst h
    simp [cmdProsFree]
  | characterMode b =>
    cases b with
    | true =>
      simp only [ssmlConvertCommand, if_pos, Option.some.injEq] at h
      subst h
      simp [cmdProsFree, alookup]
    | false =>
      simp [ssmlConvertCommand] at h
      subst h
      simp [cmdProsFree]
  | langChange l =>
    simp only [ssmlConvertCommand, Option.some.injEq] at h
    subst h
    simp [cmdProsFree]
  | brk t =>
    simp only [ssmlConvertCommand, Option.some.injEq] at h
    subst h
    simp [cmdProsFree, alookup]
  | pitch m =>
    simp only [ssmlConvertCommand, Option.some.injEq] at h
    subst h
    by_cases hm : m = 1
    · simp [convertProsody, hm, cmdProsFree]
    · have hk' : ProsKind.pitchK = k → m = 1 := hk
      cases k with
      | pitchK => exact absurd (hk' rfl) hm
      | rateK => simp [convertProsody, hm, cmdProsFree, prosAttrName]
      | volumeK => simp [convertProsody, hm, cmdProsFree, prosAttrName]
  | rate m =>
    simp only [ssmlConvertCommand, Option.some.injEq] at h
    subst h
    by_cases hm : m = 1
    · simp [convertProsody, hm, cmdProsFree]
    · have hk' : ProsKind.rateK = k → m = 1 := hk
      cases k with
      | pitchK => simp [convertProsody, hm, cmdProsFree, prosAttrName]
      | rateK => exact absurd (hk' rfl) hm
      | volumeK => simp [convertProsody, hm, cmdProsFree, prosAttrName]
  | volume m =>
    simp only [ssmlConvertCommand, Option.some.injEq] at h
    subst h
    by_cases hm : m = 1
    · simp [convertProsody, hm, cmdProsFree]
    · have hk' : ProsKind.volumeK = k → m = 1 := hk
      cases k with
      | pitchK => simp [convertProsody, hm, cmdProsFree, prosAttrName]
      | rateK => simp [convertProsody, hm, cmdProsFree, prosAttrName]
      | volumeK => exact absurd (hk' rfl) hm
  | phoneme ip fb =>
    simp only [ssmlConvertCommand, Option.some.injEq] at h
    subst h
    simp [cmdProsFree, alookup]
  | callback n => simp [ssmlConvertCommand] at h
  | other n => simp [ssmlConvertCommand] at h

theorem ssmlConvert_cmdNotProsody (dl : String) (i : SpeechItem) (c : BCmd)
    (hk : prosOf i = none) (h : ssmlConvertCommand dl i = some c) :
    cmdNotProsody c = true := by
  cases i with
  | text s => simp [ssmlConvertCommand] at h
  | index n =>
    simp only [ssmlConvertCommand, Option.some.injEq] at h
    subst h
    simp [cmdNotProsody]
  | characterMode b =>
    cases b with
    | true =>
      simp only [ssmlConvertCommand, if_pos, Option.some.injEq] at h
      subst h
      simp [cmdNotProsody]
    | false =>
      simp [ssmlConvertCommand] at h
      subst h
      simp [cmdNotProsody]
  | langChange l =>
    simp only [ssmlConvertCommand, Option.some.injEq] at h
    subst h
    simp [cmdNotProsody]
  | brk t =>
    simp only [ssmlConvertCommand, Option.some.injEq] at h
    subst h
    simp [cmdNotProsody]
  | pitch m => simp [prosOf] at hk
  | rate m => simp [prosOf] at hk
  | volume m => simp [prosOf] at hk
  | phoneme ip fb =>
    simp only [ssmlConvertCommand, Option.some.injEq] at h
    subst h
    simp [cmdNotProsody]
  | callback n => simp [ssmlConvertCommand] at h
  | other n => simp [ssmlConvertCommand] at h

theorem supported_prosItem (dl : String) (k : ProsKind) (m : ℚ) :
    supportedItem dl (prosItem k m) = true := by
  cases k <;> rfl

theorem aux_reset (dl : String) (k : ProsKind) :
    (generateBalancerCommandsAux (ssmlConvertCommand dl) [prosItem k 1]).1 =
      [BCmd.delAttr "prosody" (prosAttrName k)] := by
  cases k <;> rfl

theorem delAttrT_self_clears (tags : List (String × Attrs)) (a : String)
    (hWF : tagsWF tags) :
    ∀ attrs, alookup (delAttrT tags "prosody" a).1 "prosody" = some attrs →
      alookup attrs a = none := by
  intro attrs hl
  unfold delAttrT at hl
  split_ifs at hl with h1 h2 h3
  · rw [hl] at h1
    simp only [Option.getD_some] at h1
    subst h1
    simp [alookup]
  · rw [hl] at h2
    simpa using h2
  · rw [alookup_adel_self _ hWF.1] at hl
    exact absurd hl (by simp)
  · rw [alookup_aset_self, Option.some.injEq] at hl
    subst hl
    exact alookup_adel_self _ (keysNodup_getD tags "prosody" hWF)

theorem tagsWF_initB : tagsWF initB.tags := by
  constructor
  · simp [keysNodup, initB]
  · intro p hp
    simp [initB] at hp

theorem noProsody_balRun (cs : List BCmd) (st : BState)
    (hst : noProsodyState st) (hcs : ∀ c ∈ cs, cmdNotProsody c = true) :
    (∃ Δ, (balRun st cs).out = st.out ++ Δ ∧
      ∀ tok ∈ Δ, tokNotProsody tok = true) ∧
    noProsodyState (balRun st cs) := by
  induction cs generalizing st with
  | nil => exact ⟨⟨[], by simp [balRun], by simp⟩, hst⟩
  | cons c rest ih =>
    obtain ⟨⟨Δ₁, h1, h1f⟩, hst'⟩ :=
      noProsody_balStep st c hst (hcs c (List.mem_cons_self c rest))
    obtain ⟨⟨Δ₂, h2, h2f⟩, hst''⟩ :=
      ih (balStep st c) hst' (fun x hx => hcs x (List.mem_cons_of_mem c hx))
    refine ⟨⟨Δ₁ ++ Δ₂, ?_, ?_⟩, hst''⟩
    · rw [balRun_cons, h2, h1, List.append_assoc]
    · intro tok htok
      rcases List.mem_append.mp htok with hm | hm
      · exact h1f tok hm
      · exact h2f tok hm

/-- C6: after a Pitch/Rate/Volume command with multiplier 1 that follows a
non-1 command of the same kind, the corresponding prosody attribute is absent
from all markup emitted after the reset point (it is deleted, not set to
"100%"), provided the remainder issues no new non-1 command of that kind; and
if the prosody tag then has no remaining attributes at all (and the remainder
issues no prosody command), the prosody tag is no longer emitted. -/
theorem c6_reset_deletes (dl : String) (k : ProsKind) (m : ℚ)
    (ss₁ ss₂ : List SpeechItem) (hm : m ≠ 1)
    (h₁ : ∀ i ∈ ss₁, supportedItem dl i = true)
    (h₂ : noSetOfKind k ss₂ = true) :
    (∀ tok ∈ (genTokens (ssmlCmds dl
        (ss₁ ++ prosItem k m :: prosItem k 1 :: ss₂))).drop
        (balRun initB (ssmlCmds dl
          (ss₁ ++ [prosItem k m, prosItem k 1]))).out.length,
      tokAttrAbsent (prosAttrName k) tok = true) ∧
    (noProsodyItems ss₂ = true →
      alookup (balRun initB (ssmlCmds dl
        (ss₁ ++ [prosItem k m, prosItem k 1]))).tags "prosody" = none →
      ∀ tok ∈ (genTokens (ssmlCmds dl
          (ss₁ ++ prosItem k m :: prosItem k 1 :: ss₂))).drop
          (balRun initB (ssmlCmds dl
            (ss₁ ++ [prosItem k m, prosItem k 1]))).out.length,
      tokNotProsody tok = true) := by
  have hsupp2 : ∀ i ∈ ss₁ ++ [prosItem k m, prosItem k 1],
      supportedItem dl i = true := by
    intro i hi
    rcases List.mem_append.mp hi with h | h
    · exact h₁ i h
    · rcases List.mem_cons.mp h with h | h
      · subst h
        exact supported_prosItem dl k m
      · rcases List.mem_cons.mp h with h | h
        · subst h
          exact supported_prosItem dl k 1
        · simp at h
  have hlist : ss₁ ++ prosItem k m :: prosItem k 1 :: ss₂ =
      (ss₁ ++ [prosItem k m, prosItem k 1]) ++ ss₂ := by simp
  set csA := ssmlCmds dl (ss₁ ++ [prosItem k m, prosItem k 1]) with hcsA
  set csB := (generateBalancerCommandsAux (ssmlConvertCommand dl) ss₂).1 with hcsB
  set stA := balRun initB csA with hstA
  have hsplit : ssmlCmds dl (ss₁ ++ prosItem k m :: prosItem k 1 :: ss₂) =
      csA ++ csB := by
    rw [hcsA, hcsB, hlist]
    exact ssmlCmds_append dl _ ss₂ hsupp2
  have hAsplit : csA = ssmlCmds dl (ss₁ ++ [prosItem k m]) ++
      [BCmd.delAttr "prosody" (prosAttrName k)] := by
    rw [hcsA]
    have hl2 : ss₁ ++ [prosItem k m, prosItem k 1] =
        (ss₁ ++ [prosItem k m]) ++ [prosItem k 1] := by simp
    rw [hl2, ssmlCmds_append dl _ _ ?hsup, aux_reset dl k]
    case hsup =>
      intro i hi
      rcases List.mem_append.mp hi with h | h
      · exact h₁ i h
      · rcases List.mem_cons.mp h with h | h
        · subst h
          exact supported_prosItem dl k m
        · simp at h
  have hWFpre : tagsWF (balRun initB
      (ssmlCmds dl (ss₁ ++ [prosItem k m]))).tags :=
    tagsWF_balRun _ _ tagsWF_initB
  have hstAeq : stA = balStep (balRun initB
      (ssmlCmds dl (ss₁ ++ [prosItem k m])))
      (BCmd.delAttr "prosody" (prosAttrName k)) := by
    rw [hstA, hAsplit, balRun_append]
    rfl
  have hWFA : tagsWF stA.tags := by
    rw [hstA]
    exact tagsWF_balRun _ _ tagsWF_initB
  have htagsA : ∀ attrs, alookup stA.tags "prosody" = some attrs →
      alookup attrs (prosAttrName k) = none := by
    rw [hstAeq]
    intro attrs hl
    exact delAttrT_self_clears _ _ hWFpre attrs hl
  have hencA : ∀ t at', stA.tagEnclosingText = some (t, at') → t = "say-as" := by
    rw [hstA]
    apply encSafe_balRun
    · intro t at' he
      simp [initB] at he
    · intro tag attrs hmem
      rw [hcsA] at hmem
      rcases List.mem_cons.mp hmem with h | h
      · exact absurd h (by simp)
      · rcases mem_aux_commands _ _ _ h with ⟨s, hs⟩ | ⟨i, hi, hc⟩
        · exact absurd hs (by simp)
        · exact ssmlConvert_encloseText_sayAs dl i tag attrs hc
  have hstateA : prosFreeState (prosAttrName k) stA := by
    refine ⟨hWFA, htagsA, ?_⟩
    intro t at' he hp
    have h1 := hencA t at' he
    rw [hp] at h1
    exact absurd h1 (by decide)
  have hcsBfree : ∀ c ∈ csB, cmdProsFree (prosAttrName k) c = true := by
    intro c hc
    rw [hcsB] at hc
    rcases mem_aux_commands _ _ _ hc with ⟨s, rfl⟩ | ⟨i, hi, hcv⟩
    · rfl
    · refine ssmlConvert_cmdProsFree dl k i c ?_ hcv
      unfold noSetOfKind at h₂
      have h3 := List.all_eq_true.mp h₂ i hi
      cases hpo : prosOf i with
      | none => trivial
      | some p =>
        obtain ⟨k', m'⟩ := p
        rw [hpo] at h3
        have h4 : decide (k' = k → m' = 1) = true := h3
        exact of_decide_eq_true h4
  obtain ⟨⟨Δ, hΔ, hΔf⟩, _⟩ :=
    prosFree_balRun (prosAttrName k) csB stA hstateA hcsBfree
  have hgen : genTokens (ssmlCmds dl
      (ss₁ ++ prosItem k m :: prosItem k 1 :: ss₂)) =
      stA.out ++ (Δ ++ ((balRun stA csB).openTags.reverse.map Token.closeT ++
        (balRun stA csB).enclosingAllTags.map Token.closeT)) := by
    rw [hsplit]
    show (balRun initB (csA ++ csB)).out ++
      (balRun initB (csA ++ csB)).openTags.reverse.map Token.closeT ++
      (balRun initB (csA ++ csB)).enclosingAllTags.map Token.closeT = _
    rw [balRun_append, ← hstA, hΔ]
    simp [List.append_assoc]
  have hdrop : (genTokens (ssmlCmds dl
      (ss₁ ++ prosItem k m :: prosItem k 1 :: ss₂))).drop stA.out.length =
      Δ ++ ((balRun stA csB).openTags.reverse.map Token.closeT ++
        (balRun stA csB).enclosingAllTags.map Token.closeT) := by
    rw [hgen]
    exact List.drop_left _ _
  constructor
  · intro tok htok
    rw [hdrop] at htok
    rcases List.mem_append.mp htok with h | h
    · exact hΔf tok h
    · rcases List.mem_append.mp h with h | h
      · rcases List.mem_map.mp h with ⟨t, _, rfl⟩
        rfl
      · rcases List.mem_map.mp h with ⟨t, _, rfl⟩
        rfl
  · intro hnp hnone
    have hstateB : noProsodyState stA := by
      refine ⟨hnone, ?_⟩
      intro t at' he
      have h1 := hencA t at' he
      rw [h1]
      decide
    have hcsBnp : ∀ c ∈ csB, cmdNotProsody c = true := by
      intro c hc
      rw [hcsB] at hc
      rcases mem_aux_commands _ _ _ hc with ⟨s, rfl⟩ | ⟨i, hi, hcv⟩
      · rfl
      · refine ssmlConvert_cmdNotProsody dl i c ?_ hcv
        unfold noProsodyItems at hnp
        have h3 := List.all_eq_true.mp hnp i hi
        exact Option.isNone_iff_eq_none.mp h3
    obtain ⟨⟨Δ', hΔ', hΔ'f⟩, _⟩ := noProsody_balRun csB stA hstateB hcsBnp
    have hΔeq : Δ = Δ' := by
      have h4 : stA.out ++ Δ = stA.out ++ Δ' := hΔ.symm.trans hΔ'
      exact List.append_cancel_left h4
    intro tok htok
    rw [hdrop] at htok
    rcases List.mem_append.mp htok with h | h
    · exact hΔ'f tok (hΔeq ▸ h)
    · rcases List.mem_append.mp h with h | h
      · rcases List.mem_map.mp h with ⟨t, _, rfl⟩
        rfl
      · rcases List.mem_map.mp h with ⟨t, _, rfl⟩
        rfl

theorem runHandler_some_pros (mc : Bool) (cache : List Attrs) (tag : String)
    (attrs : Attrs) (h : normalizeTag tag = "Prosody") :
    runHandler mc cache tag (some attrs) =
      .ok (prosodyCmds attrs true, attrs :: cache) := by
  unfold runHandler
  rw [h]
  simp

theorem runHandler_some_notPros (mc : Bool) (cache : List Attrs) (tag : String)
    (attrs : Attrs) (h : ¬ normalizeTag tag = "Prosody") :
    ∃ cmds, runHandler mc cache tag (some attrs) = .ok (cmds, cache) := by
  unfold runHandler
  split_ifs with h1 h2 h3 h4 h5
  · exact ⟨_, rfl⟩
  · exact ⟨_, rfl⟩
  · exact ⟨_, rfl⟩
  · exact ⟨_, rfl⟩
  · exact ⟨_, rfl⟩
  · exact ⟨_, rfl⟩

theorem runHandler_none_pros (mc : Bool) (a : Attrs) (rest : List Attrs)
    (tag : String) (h : normalizeTag tag = "Prosody") :
    runHandler mc (a :: rest) tag none = .ok (prosodyCmds a false, rest) := by
  unfold runHandler
  rw [h]
  simp

theorem runHandler_none_notPros (mc : Bool) (cache : List Attrs) (tag : String)
    (h : ¬ normalizeTag tag = "Prosody") :
    ∃ cmds, runHandler mc cache tag none = .ok (cmds, cache) := by
  unfold runHandler
  split_ifs with h1 h2 h3 h4 h5
  · exact ⟨_, rfl⟩
  · exact ⟨_, rfl⟩
  · exact ⟨_, rfl⟩
  · exact ⟨_, rfl⟩
  · exact ⟨_, rfl⟩
  · exact ⟨_, rfl⟩

theorem handleEvent_chars (mc : Bool) (pst : PState) (s : String) :
    handleEvent mc pst (.chars s) =
      .ok ⟨SpeechItem.text s :: pst.rseq, pst.cache⟩ := rfl

theorem handleEvent_start_pros (mc : Bool) (pst : PState) (tag : String)
    (attrs : Attrs) (h : normalizeTag tag = "Prosody") :
    handleEvent mc pst (.start tag attrs) =
      .ok ⟨(prosodyCmds attrs true).foldl dedupPush pst.rseq,
           attrs :: pst.cache⟩ := by
  simp only [handleEvent]
  rw [runHandler_some_pros mc pst.cache tag attrs h]

theorem handleEvent_start_notPros (mc : Bool) (pst : PState) (tag : String)
    (attrs : Attrs) (h : ¬ normalizeTag tag = "Prosody") :
    ∃ rseq', handleEvent mc pst (.start tag attrs) = .ok ⟨rseq', pst.cache⟩ := by
  obtain ⟨cmds, hc⟩ := runHandler_some_notPros mc pst.cache tag attrs h
  refine ⟨cmds.foldl dedupPush pst.rseq, ?_⟩
  simp only [handleEvent]
  rw [hc]

theorem handleEvent_stop_pros (mc : Bool) (pst : PState) (tag : String)
    (a : Attrs) (rest : List Attrs) (h : normalizeTag tag = "Prosody")
    (hc : pst.cache = a :: rest) :
    handleEvent mc pst (.stop tag) =
      .ok ⟨(prosodyCmds a false).foldl dedupPush pst.rseq, rest⟩ := by
  simp only [handleEvent]
  rw [hc, runHandler_none_pros mc a rest tag h]

theorem handleEvent_stop_notPros (mc : Bool) (pst : PState) (tag : String)
    (h : ¬ normalizeTag tag = "Prosody") :
    ∃ rseq', handleEvent mc pst (.stop tag) = .ok ⟨rseq', pst.cache⟩ := by
  obtain ⟨cmds, hc⟩ := runHandler_none_notPros mc pst.cache tag h
  refine ⟨cmds.foldl dedupPush pst.rseq, ?_⟩
  simp only [handleEvent]
  rw [hc]

theorem handlers_ok_of_buildGo (mc : Bool) (toks : List XTok) :
    ∀ (stack : List String) (rootDone : Bool) (evs : List XEvent),
      buildEventsGo stack rootDone toks = .ok evs →
      ∀ pst : PState,
        pst.cache.length =
          stack.countP (fun n => decide (normalizeTag n = "Prosody")) →
        ∃ pst', evs.foldlM (handleEvent mc) pst = .ok pst' := by
  induction toks with
  | nil =>
    intro stack rootDone evs hb pst hlen
    simp only [buildEventsGo] at hb
    split_ifs at hb
    injection hb with hb
    subst hb
    exact ⟨pst, rfl⟩
  | cons t toks ih =>
    intro stack rootDone evs hb pst hlen
    cases t with
    | text s =>
      simp only [buildEventsGo] at hb
      by_cases hse : stack.isEmpty = true
      · rw [if_pos hse] at hb
        by_cases hsp : (s.toList.all isXmlSpace) = true
        · rw [if_pos hsp] at hb
          exact ih stack rootDone evs hb pst hlen
        · rw [if_neg hsp] at hb
          simp at hb
      · rw [if_neg hse] at hb
        cases hrec : buildEventsGo stack rootDone toks with
        | error e =>
          rw [hrec] at hb
          simp at hb
        | ok evs' =>
          rw [hrec] at hb
          injection hb with hb
          subst hb
          obtain ⟨pst', hps⟩ := ih stack rootDone evs' hrec
            ⟨SpeechItem.text s :: pst.rseq, pst.cache⟩ hlen
          refine ⟨pst', ?_⟩
          rw [List.foldlM_cons, handleEvent_chars]
          simpa using hps
    | startTag tag attrs sc =>
      simp only [buildEventsGo] at hb
      by_cases hjunk : (stack.isEmpty && rootDone) = true
      · rw [if_pos hjunk] at hb
        simp at hb
      · rw [if_neg hjunk] at hb
        cases sc with
        | false =>
          rw [if_neg (by simp)] at hb
          cases hrec : buildEventsGo (tag :: stack) rootDone toks with
          | error e =>
            rw [hrec] at hb
            simp at hb
          | ok evs' =>
            rw [hrec] at hb
            injection hb with hb
            subst hb
            by_cases hp : normalizeTag tag = "Prosody"
            · have hlen' : (attrs :: pst.cache).length =
                  (tag :: stack).countP
                    (fun n => decide (normalizeTag n = "Prosody")) := by
                simp [List.countP_cons, hp, hlen]
              obtain ⟨pst', hps⟩ := ih (tag :: stack) rootDone evs' hrec
                ⟨(prosodyCmds attrs true).foldl dedupPush pst.rseq,
                 attrs :: pst.cache⟩ hlen'
              refine ⟨pst', ?_⟩
              rw [List.foldlM_cons, handleEvent_start_pros mc pst tag attrs hp]
              simpa using hps
            · obtain ⟨rseq', hstart⟩ := handleEvent_start_notPros mc pst tag attrs hp
              have hlen' : (pst.cache).length =
                  (tag :: stack).countP
                    (fun n => decide (normalizeTag n = "Prosody")) := by
                simp [List.countP_cons, hp, hlen]
              obtain ⟨pst', hps⟩ := ih (tag :: stack) rootDone evs' hrec
                ⟨rseq', pst.cache⟩ hlen'
              refine ⟨pst', ?_⟩
              rw [List.foldlM_cons, hstart]
              simpa using hps
        | true =>
          rw [if_pos rfl] at hb
          cases hrec : buildEventsGo stack (rootDone || stack.isEmpty) toks with
          | error e =>
            rw [hrec] at hb
            simp at hb
          | ok evs' =>
            rw [hrec] at hb
            injection hb with hb
            subst hb
            by_cases hp : normalizeTag tag = "Prosody"
            · obtain ⟨pst', hps⟩ := ih stack (rootDone || stack.isEmpty) evs' hrec
                ⟨(prosodyCmds attrs false).foldl dedupPush
                  ((prosodyCmds attrs true).foldl dedupPush pst.rseq),
                 pst.cache⟩ hlen
              refine ⟨pst', ?_⟩
              rw [List.foldlM_cons, handleEvent_start_pros mc pst tag attrs hp]
              show (.stop tag :: evs').foldlM (handleEvent mc) _ = _
              rw [List.foldlM_cons,
                handleEvent_stop_pros mc _ tag attrs pst.cache hp rfl]
              simpa using hps
            · obtain ⟨rseq₁, hstart⟩ := handleEvent_start_notPros mc pst tag attrs hp
              obtain ⟨rseq₂, hstop⟩ :=
                handleEvent_stop_notPros mc ⟨rseq₁, pst.cache⟩ tag hp
              obtain ⟨pst', hps⟩ := ih stack (rootDone || stack.isEmpty) evs' hrec
                ⟨rseq₂, pst.cache⟩ hlen
              refine ⟨pst', ?_⟩
              rw [List.foldlM_cons, hstart]
              show (.stop tag :: evs').foldlM (handleEvent mc) _ = _
              rw [List.foldlM_cons, hstop]
              simpa using hps
    | endTag tag =>
      cases stack with
      | nil =>
        simp only [buildEventsGo] at hb
        simp at hb
      | cons top rest =>
        simp only [buildEventsGo] at hb
        by_cases htop : top = tag
        · rw [if_pos htop] at hb
          cases hrec : buildEventsGo rest (rootDone || rest.isEmpty) toks with
          | error e =>
            rw [hrec] at hb
            simp at hb
          | ok evs' =>
            rw [hrec] at hb
            injection hb with hb
            subst hb
            by_cases hp : normalizeTag tag = "Prosody"
            · have hpos : pst.cache.length =
                  rest.countP (fun n => decide (normalizeTag n = "Prosody")) + 1 := by
                rw [hlen, List.countP_cons]
                simp [htop, hp]
              cases hcache : pst.cache with
              | nil =>
                rw [hcache] at hpos
                simp at hpos
              | cons a crest =>
                have hlen' : crest.length =
                    rest.countP (fun n => decide (normalizeTag n = "Prosody")) := by
                  rw [hcache] at hpos
                  simpa using hpos
                obtain ⟨pst', hps⟩ := ih rest (rootDone || rest.isEmpty) evs' hrec
                  ⟨(prosodyCmds a false).foldl dedupPush pst.rseq, crest⟩ hlen'
                refine ⟨pst', ?_⟩
                rw [List.foldlM_cons,
                  handleEvent_stop_pros mc pst tag a crest hp hcache]
                simpa using hps
            · obtain ⟨rseq', hstop⟩ := handleEvent_stop_notPros mc pst tag hp
              have hlen' : pst.cache.length =
                  rest.countP (fun n => decide (normalizeTag n = "Prosody")) := by
                rw [hlen, List.countP_cons]
                simp [htop, hp]
              obtain ⟨pst', hps⟩ := ih rest (rootDone || rest.isEmpty) evs' hrec
                ⟨rseq', pst.cache⟩ hlen'
              refine ⟨pst', ?_⟩
              rw [List.foldlM_cons, hstop]
              simpa using hps
        · rw [if_neg htop] at hb
          simp at hb

/-- C3: decoding raises exactly when the markup is malformed at the parser
level (tokenizer or document grammar): for malformed input the result is the
structured error `"XML: " ++ xml` naming the offending input (and, the result
being an error, no partial sequence is returned); for well-formed input the
handlers never fail, so a sequence is returned without raising. -/
theorem c3_raises_iff_malformed (mc : Bool) (xml : String) :
    (isOkE (convertFromXml mc xml) = isOkE (syntaxEvents xml)) ∧
    (isOkE (syntaxEvents xml) = false →
      convertFromXml mc xml = .error ("XML: " ++ xml)) := by
  cases hlex : lexAll xml with
  | error e =>
    have hsy : syntaxEvents xml = .error e := by
      unfold syntaxEvents
      rw [hlex]
    have hpipe : xmlPipeline mc xml = .error e := by
      unfold xmlPipeline
      rw [hlex]
    have hcf : convertFromXml mc xml = .error ("XML: " ++ xml) := by
      unfold convertFromXml
      rw [hpipe]
    rw [hcf, hsy]
    exact ⟨rfl, fun _ => rfl⟩
  | ok toks =>
    cases hbe : buildEvents toks with
    | error e =>
      have hsy : syntaxEvents xml = .error e := by
        unfold syntaxEvents
        rw [hlex]
        exact hbe
      have hpipe : xmlPipeline mc xml = .error e := by
        unfold xmlPipeline
        rw [hlex]
        show (match buildEvents toks with
          | .error e => .error e
          | .ok evs =>
            match evs.foldlM (handleEvent mc) ⟨[], []⟩ with
            | .error e => .error e
            | .ok st => Except.ok st.rseq.reverse) = Except.error e
        rw [hbe]
      have hcf : convertFromXml mc xml = .error ("XML: " ++ xml) := by
        unfold convertFromXml
        rw [hpipe]
      rw [hcf, hsy]
      exact ⟨rfl, fun _ => rfl⟩
    | ok evs =>
      obtain ⟨pst', hps⟩ := handlers_ok_of_buildGo mc toks [] false evs hbe
        ⟨[], []⟩ (by simp)
      have hsy : syntaxEvents xml = .ok evs := by
        unfold syntaxEvents
        rw [hlex]
        exact hbe
      have hpipe : xmlPipeline mc xml = .ok pst'.rseq.reverse := by
        unfold xmlPipeline
        rw [hlex]
        show (match buildEvents toks with
          | .error e => .error e
          | .ok evs =>
            match evs.foldlM (handleEvent mc) ⟨[], []⟩ with
            | .error e => .error e
            | .ok st => Except.ok st.rseq.reverse) = Except.ok pst'.rseq.reverse
        rw [hbe]
        show (match evs.foldlM (handleEvent mc) ⟨[], []⟩ with
          | .error e => .error e
          | .ok st => Except.ok st.rseq.reverse) = Except.ok pst'.rseq.reverse
        rw [hps]
      have hcf : convertFromXml mc xml = .ok pst'.rseq.reverse := by
        unfold convertFromXml
        rw [hpipe]
      rw [hcf, hsy]
      refine ⟨rfl, ?_⟩
      intro hcontra
      simp [isOkE] at hcontra

/-- C3 witness: a malformed and a well-formed concrete input. -/
theorem c3_raises_witness :
    isOkE (syntaxEvents "<a>") = false ∧
    convertFromXml false "<a>" = .error ("XML: " ++ "<a>") ∧
    isOkE (convertFromXml false "<speak>hi</speak>") =
      isOkE (syntaxEvents "<speak>hi</speak>") :=
  ⟨by decide, (c3_raises_iff_malformed false "<a>").2 (by decide),
   (c3_raises_iff_malformed false "<speak>hi</speak>").1⟩

/-- C6 witness. -/
theorem c6_reset_witness :
    ((3 : ℚ) / 2 ≠ 1) ∧
    (∀ i ∈ ([SpeechItem.text "x"] : List SpeechItem),
      supportedItem "en-US" i = true) ∧
    noSetOfKind ProsKind.pitchK [SpeechItem.text "y"] = true ∧
    (∀ tok ∈ (genTokens (ssmlCmds "en-US"
        ([SpeechItem.text "x"] ++ prosItem ProsKind.pitchK (3 / 2) ::
          prosItem ProsKind.pitchK 1 :: [SpeechItem.text "y"]))).drop
        (balRun initB (ssmlCmds "en-US"
          ([SpeechItem.text "x"] ++ [prosItem ProsKind.pitchK (3 / 2),
            prosItem ProsKind.pitchK 1]))).out.length,
      tokAttrAbsent (prosAttrName ProsKind.pitchK) tok = true) :=
  ⟨by norm_num, by decide, by decide,
   (c6_reset_deletes "en-US" ProsKind.pitchK (3 / 2) [SpeechItem.text "x"]
     [SpeechItem.text "y"] (by norm_num) (by decide) (by decide)).1⟩

/-! ### String and decimal utilities -/

/-- `String.toList` distributes over concatenation. -/
theorem strCat_toList (a b : String) : (a ++ b).toList = a.toList ++ b.toList := by
  cases a
  cases b
  rfl

/-- The characters of a built string. -/
theorem strMk_toList (l : List Char) : (String.mk l).toList = l := rfl

/-- A nonempty string has nonempty characters. -/
theorem str_toList_ne_nil {s : String} (h : s ≠ "") : s.toList ≠ [] := by
  intro hl
  apply h
  cases s with
  | mk data =>
    simp only [String.toList] at hl
    rw [hl]

/-- The ten digit characters: value, digit-ness, plainness. -/
theorem digit_facts : ∀ m : Fin 10, digitVal (digitChar m.val) = m.val ∧
    (digitChar m.val).isDigit = true ∧ plainChar (digitChar m.val) = true := by
  decide

/-- `digitChar` only depends on the residue. -/
theorem digitChar_mod (n : ℕ) : digitChar n = digitChar (n % 10) := by
  unfold digitChar
  congr 1
  omega

/-- Value of a rendered digit. -/
theorem digitVal_digitChar (n : ℕ) : digitVal (digitChar n) = n % 10 := by
  rw [digitChar_mod]
  exact (digit_facts ⟨n % 10, by omega⟩).1

/-- Rendered digits are digits. -/
theorem isDigit_digitChar (n : ℕ) : (digitChar n).isDigit = true := by
  rw [digitChar_mod]
  exact (digit_facts ⟨n % 10, by omega⟩).2.1

/-- Rendered digits are plain. -/
theorem plainChar_digitChar (n : ℕ) : plainChar (digitChar n) = true := by
  rw [digitChar_mod]
  exact (digit_facts ⟨n % 10, by omega⟩).2.2

/-- The accumulator of `natCharsAux` is just appended. -/
theorem natCharsAux_eq_append (fuel : ℕ) : ∀ n acc, n < fuel →
    natCharsAux fuel n acc = natCharsAux fuel n [] ++ acc := by
  induction fuel with
  | zero => intro n acc h; omega
  | succ fuel ih =>
    intro n acc h
    by_cases h10 : n < 10
    · simp [natCharsAux, if_pos h10]
    · have hd : n / 10 < fuel := by omega
      simp only [natCharsAux, if_neg h10]
      rw [ih (n / 10) (digitChar (n % 10) :: acc) hd,
          ih (n / 10) [digitChar (n % 10)] hd, List.append_assoc]
      rfl

/-- Appending one digit multiplies by ten and adds. -/
theorem digitsVal_append_single (l : List Char) (c : Char) :
    digitsVal (l ++ [c]) = 10 * digitsVal l + digitVal c := by
  unfold digitsVal
  rw [List.foldl_append]
  rfl

/-- Decimal rendering and parsing are inverse (worker form). -/
theorem digitsVal_natCharsAux (fuel : ℕ) : ∀ n, n < fuel →
    digitsVal (natCharsAux fuel n []) = n := by
  induction fuel with
  | zero => intro n h; omega
  | succ fuel ih =>
    intro n h
    by_cases h10 : n < 10
    · simp only [natCharsAux, if_pos h10]
      show 10 * 0 + digitVal (digitChar n) = n
      rw [digitVal_digitChar]
      omega
    · have hd : n / 10 < fuel := by omega
      simp only [natCharsAux, if_neg h10]
      rw [natCharsAux_eq_append fuel (n / 10) [digitChar (n % 10)] hd,
          digitsVal_append_single, ih (n / 10) hd, digitVal_digitChar]
      omega

/-- Decimal rendering and parsing are inverse. -/
theorem digitsVal_natChars (n : ℕ) : digitsVal (natChars n) = n :=
  digitsVal_natCharsAux (n + 1) n (Nat.lt_succ_self n)

/-- Every character produced by `natCharsAux` is from the accumulator or a
digit character. -/
theorem mem_natCharsAux (fuel : ℕ) : ∀ n acc c, c ∈ natCharsAux fuel n acc →
    c ∈ acc ∨ ∃ m, c = digitChar m := by
  induction fuel with
  | zero => intro n acc c h; exact .inl h
  | succ fuel ih =>
    intro n acc c h
    by_cases h10 : n < 10
    · simp only [natCharsAux, if_pos h10] at h
      rcases List.mem_cons.mp h with h | h
      · exact .inr ⟨n, h⟩
      · exact .inl h
    · simp only [natCharsAux, if_neg h10] at h
      rcases ih (n / 10) _ c h with h | h
      · rcases List.mem_cons.mp h with h | h
        · exact .inr ⟨n % 10, h⟩
        · exact .inl h
      · exact .inr h

/-- The rendered decimal digits are digit characters and plain. -/
theorem natChars_spec (n : ℕ) :
    ∀ c ∈ natChars n, c.isDigit = true ∧ plainChar c = true := by
  intro c hc
  rcases mem_natCharsAux (n + 1) n [] c hc with h | ⟨m, rfl⟩
  · simp at h
  · exact ⟨isDigit_digitChar m, plainChar_digitChar m⟩

/-- `natCharsAux` never returns the empty list when given fuel or a nonempty
accumulator. -/
theorem natCharsAux_ne_nil (fuel : ℕ) : ∀ n acc, 0 < fuel ∨ acc ≠ [] →
    natCharsAux fuel n acc ≠ [] := by
  induction fuel with
  | zero =>
    intro n acc h
    rcases h with h | h
    · omega
    · exact h
  | succ fuel ih =>
    intro n acc _
    by_cases h10 : n < 10
    · simp [natCharsAux, if_pos h10]
    · simp only [natCharsAux, if_neg h10]
      exact ih (n / 10) _ (.inr (by simp))

/-- The decimal rendering is nonempty. -/
theorem natChars_ne_nil (n : ℕ) : natChars n ≠ [] :=
  natCharsAux_ne_nil (n + 1) n [] (.inl (by omega))

/-- `takeWhile` passes over a prefix all of whose characters satisfy the
predicate. -/
theorem takeWhile_all_append (p : Char → Bool) : ∀ (l r : List Char),
    (∀ c ∈ l, p c = true) → (l ++ r).takeWhile p = l ++ r.takeWhile p := by
  intro l
  induction l with
  | nil => intro r _; rfl
  | cons c t ih =>
    intro r h
    have hc : p c = true := h c (.head t)
    simp [List.takeWhile_cons, hc, ih r (fun d hd => h d (.tail c hd))]

/-- `dropWhile` drops a prefix all of whose characters satisfy the
predicate. -/
theorem dropWhile_all_append (p : Char → Bool) : ∀ (l r : List Char),
    (∀ c ∈ l, p c = true) → (l ++ r).dropWhile p = r.dropWhile p := by
  intro l
  induction l with
  | nil => intro r _; rfl
  | cons c t ih =>
    intro r h
    have hc : p c = true := h c (.head t)
    simp [List.dropWhile_cons, hc, ih r (fun d hd => h d (.tail c hd))]

/-- A plain character escapes to itself. -/
theorem escapeChar_plain {c : Char} (h : plainChar c = true) :
    escapeChar c = [c] := by
  simp only [plainChar, Bool.not_eq_true', Bool.or_eq_false_iff,
    decide_eq_false_iff_not] at h
  simp [escapeChar, h.1.1.1.1, h.1.1.1.2, h.1.1.2, h.1.2, h.2]

/-- Escaping is the identity on plain characters. -/
theorem escapeChars_plain : ∀ (l : List Char),
    (∀ c ∈ l, plainChar c = true) → escapeChars l = l := by
  intro l
  induction l with
  | nil => intro _; rfl
  | cons c t ih =>
    intro h
    simp only [escapeChars, List.flatMap_cons]
    rw [escapeChar_plain (h c (.head t)),
        show t.flatMap escapeChar = escapeChars t from rfl,
        ih (fun d hd => h d (.tail c hd))]
    rfl

/-- Unpacking `plainStr`. -/
theorem plainStr_mem {s : String} (h : plainStr s = true) :
    ∀ c ∈ s.toList, plainChar c = true := by
  simpa [plainStr, List.all_eq_true] using h

/-- Hyphenating a plain language tag keeps it plain. -/
theorem plainStr_toXmlLang {s : String} (h : plainStr s = true) :
    plainStr (toXmlLang s) = true := by
  simp only [plainStr, toXmlLang, strMk_toList, List.all_eq_true] at *
  intro c hc
  rcases List.mem_map.mp hc with ⟨d, hd, rfl⟩
  by_cases hd' : d = '_'
  · rw [if_pos hd']
    decide
  · rw [if_neg hd']
    exact h d hd

/-- Parsing the rendered break time recovers the number. -/
theorem parseTimeMs_natToStr (n : ℕ) :
    parseTimeMs (natToStr n ++ "ms") = some n := by
  have htl : (natToStr n ++ "ms").toList = natChars n ++ ['m', 's'] := by
    rw [strCat_toList]
    rfl
  have hdig : ∀ c ∈ natChars n, Char.isDigit c = true :=
    fun c hc => (natChars_spec n c hc).1
  simp only [parseTimeMs, htl]
  rw [takeWhile_all_append Char.isDigit (natChars n) ['m', 's'] hdig,
      dropWhile_all_append Char.isDigit (natChars n) ['m', 's'] hdig,
      show List.takeWhile Char.isDigit ['m', 's'] = [] from rfl,
      show List.dropWhile Char.isDigit ['m', 's'] = ['m', 's'] from rfl,
      List.append_nil, if_neg (natChars_ne_nil n)]
  show some (digitsVal (natChars n)) = some n
  rw [digitsVal_natChars]

/-! ### Lexer composition -/

/-- Running the lexer over a concatenation. -/
theorem lexRun_append (st : LexSt) (a b : List Char) :
    lexRun st (a ++ b) = lexRun (lexRun st a) b := by
  unfold lexRun
  rw [List.foldl_append]

/-- What plainness gives character by character. -/
theorem plainChar_spec {c : Char} (h : plainChar c = true) :
    c ≠ '<' ∧ c ≠ '>' ∧ c ≠ '&' ∧ c ≠ '"' ∧ isInvalidXmlChar c = false := by
  simp only [plainChar, Bool.not_eq_true', Bool.or_eq_false_iff,
    decide_eq_false_iff_not] at h
  exact ⟨h.1.1.1.1, h.1.1.1.2, h.1.1.2, h.1.2, h.2⟩

/-- A plain character in character-data mode is accumulated. -/
theorem lexStep_text_plain (toks : List XTok) (acc : List Char) {c : Char}
    (h : plainChar c = true) :
    lexStep ⟨toks, .text acc⟩ c = ⟨toks, .text (c :: acc)⟩ := by
  obtain ⟨h1, _, h3, _, h5⟩ := plainChar_spec h
  simp [lexStep, h1, h3, h5]

/-- A run of plain characters in character-data mode is accumulated. -/
theorem lexRun_text_plain : ∀ (cs : List Char) (toks : List XTok)
    (acc : List Char), (∀ c ∈ cs, plainChar c = true) →
    lexRun ⟨toks, .text acc⟩ cs = ⟨toks, .text (cs.reverse ++ acc)⟩ := by
  intro cs
  induction cs with
  | nil => intro toks acc _; rfl
  | cons c t ih =>
    intro toks acc h
    show lexRun (lexStep ⟨toks, .text acc⟩ c) t = _
    rw [lexStep_text_plain toks acc (h c (.head t)),
        ih toks (c :: acc) (fun d hd => h d (.tail c hd))]
    simp

/-- A plain character in attribute-value mode is accumulated. -/
theorem lexStep_attrVal_plain (toks : List XTok) (tag : String) (attrs : Attrs)
    (aname : String) (vacc : List Char) {c : Char} (h : plainChar c = true) :
    lexStep ⟨toks, .attrVal tag attrs aname vacc⟩ c =
      ⟨toks, .attrVal tag attrs aname (c :: vacc)⟩ := by
  obtain ⟨h1, _, h3, h4, h5⟩ := plainChar_spec h
  simp [lexStep, h1, h3, h4, h5]

/-- A run of plain characters in attribute-value mode is accumulated. -/
theorem lexRun_attrVal_plain : ∀ (cs : List Char) (toks : List XTok)
    (tag : String) (attrs : Attrs) (aname : String) (vacc : List Char),
    (∀ c ∈ cs, plainChar c = true) →
    lexRun ⟨toks, .attrVal tag attrs aname vacc⟩ cs =
      ⟨toks, .attrVal tag attrs aname (cs.reverse ++ vacc)⟩ := by
  intro cs
  induction cs with
  | nil => intro toks tag attrs aname vacc _; rfl
  | cons c t ih =>
    intro toks tag attrs aname vacc h
    show lexRun (lexStep ⟨toks, .attrVal tag attrs aname vacc⟩ c) t = _
    rw [lexStep_attrVal_plain toks tag attrs aname vacc (h c (.head t)),
        ih toks tag attrs aname (c :: vacc) (fun d hd => h d (.tail c hd))]
    simp

/-- Closing quote of a fresh attribute, then the end of a start tag. -/
theorem lexQuoteGt (toks : List XTok) (tag : String) (attrs : Attrs)
    (aname : String) (vacc : List Char) (h : alookup attrs aname = none) :
    lexRun ⟨toks, .attrVal tag attrs aname vacc⟩ ['"', '>'] =
      ⟨.startTag tag (attrs ++ [(aname, ⟨vacc.reverse⟩)]) false :: toks,
       .text []⟩ := by
  show lexStep (lexStep ⟨toks, .attrVal tag attrs aname vacc⟩ '"') '>' = _
  have h1 : lexStep ⟨toks, .attrVal tag attrs aname vacc⟩ '"' =
      ⟨toks, .inTag tag (attrs ++ [(aname, ⟨vacc.reverse⟩)])⟩ := by
    simp [lexStep, h]
  rw [h1]
  rfl

/-- Closing quote of a fresh attribute, then the end of a self-closing
tag. -/
theorem lexQuoteSlashGt (toks : List XTok) (tag : String) (attrs : Attrs)
    (aname : String) (vacc : List Char) (h : alookup attrs aname = none) :
    lexRun ⟨toks, .attrVal tag attrs aname vacc⟩ ['"', '/', '>'] =
      ⟨.startTag tag (attrs ++ [(aname, ⟨vacc.reverse⟩)]) true :: toks,
       .text []⟩ := by
  show lexStep (lexStep (lexStep ⟨toks, .attrVal tag attrs aname vacc⟩ '"')
    '/') '>' = _
  have h1 : lexStep ⟨toks, .attrVal tag attrs aname vacc⟩ '"' =
      ⟨toks, .inTag tag (attrs ++ [(aname, ⟨vacc.reverse⟩)])⟩ := by
    simp [lexStep, h]
  rw [h1]
  rfl

/-- Lexing `<speak><voice xml:lang="`. -/
theorem lexSeg_speakVoice (toks : List XTok) :
    lexRun ⟨toks, .text []⟩ "<speak><voice xml:lang=\"".toList =
      ⟨.startTag "speak" [] false :: toks,
       .attrVal "voice" [] "xml:lang" []⟩ := rfl

/-- Lexing `</voice><voice xml:lang="` from pending character data. -/
theorem lexSeg_closeVoiceOpenVoice (toks : List XTok) (acc : List Char) :
    lexRun ⟨toks, .text acc⟩ "</voice><voice xml:lang=\"".toList =
      ⟨.endTag "voice" :: flushText acc toks,
       .attrVal "voice" [] "xml:lang" []⟩ := rfl

/-- Lexing `</voice></speak>` from pending character data. -/
theorem lexSeg_closeVoiceCloseSpeak (toks : List XTok) (acc : List Char) :
    lexRun ⟨toks, .text acc⟩ "</voice></speak>".toList =
      ⟨.endTag "speak" :: .endTag "voice" :: flushText acc toks,
       .text []⟩ := rfl

/-- Lexing `</speak>` from pending character data. -/
theorem lexSeg_closeSpeak (toks : List XTok) (acc : List Char) :
    lexRun ⟨toks, .text acc⟩ "</speak>".toList =
      ⟨.endTag "speak" :: flushText acc toks, .text []⟩ := rfl

set_option maxRecDepth 4000 in
/-- Lexing the root start tag up to its `xml:lang` value. -/
theorem lexSeg_speakAttrsFront (toks : List XTok) :
    lexRun ⟨toks, .text []⟩
      "<speak version=\"1.0\" xmlns=\"http://www.w3.org/2001/10/synthesis\" xml:lang=\"".toList =
      ⟨toks, .attrVal "speak"
        [("version", "1.0"), ("xmlns", "http://www.w3.org/2001/10/synthesis")]
        "xml:lang" []⟩ := rfl

/-- Lexing `<break time="` from pending character data. -/
theorem lexSeg_breakFront (toks : List XTok) (acc : List Char) :
    lexRun ⟨toks, .text acc⟩ "<break time=\"".toList =
      ⟨flushText acc toks, .attrVal "break" [] "time" []⟩ := rfl

/-- `String.mk` of the characters of a string. -/
theorem str_eta (s : String) : String.mk s.toList = s := rfl

/-- `Except` bind on a success. -/
theorem exBind_ok {ε α β : Type} (a : α) (g : α → Except ε β) :
    (Except.ok (ε := ε) a >>= g) = g a := rfl

/-- `Except` pure. -/
theorem exPure {ε α : Type} (a : α) : (pure a : Except ε α) = .ok a := rfl

/-- Flushing pending character data of a nonempty string. -/
theorem flushText_of_ne {s : String} (h : s ≠ "") (toks : List XTok) :
    flushText s.toList.reverse toks = .text s :: toks := by
  have hne : s.toList.reverse ≠ [] := by
    simp only [ne_eq, List.reverse_eq_nil_iff]
    exact str_toList_ne_nil h
  unfold flushText
  rw [if_neg hne, List.reverse_reverse, str_eta]

/-- Lexing the whole two-voice document. -/
theorem lex_voiceDoc (L c : String)
    (hLp : ∀ x ∈ L.toList, plainChar x = true)
    (hcp : ∀ x ∈ c.toList, plainChar x = true) :
    lexRun ⟨[], .text []⟩ (voiceDoc L c).toList =
      ⟨.endTag "speak" :: .endTag "voice" ::
         flushText c.toList.reverse
           (.startTag "voice" [("xml:lang", L)] false :: .endTag "voice" ::
              flushText c.toList.reverse
                [.startTag "voice" [("xml:lang", L)] false,
                 .startTag "speak" [] false]),
       .text []⟩ := by
  have hLrev : (⟨(L.toList.reverse ++ []).reverse⟩ : String) = L := by
    rw [List.append_nil, List.reverse_reverse]
    rfl
  have hdoc : (voiceDoc L c).toList =
      "<speak><voice xml:lang=\"".toList ++ L.toList ++ "\">".toList ++
      c.toList ++ "</voice><voice xml:lang=\"".toList ++ L.toList ++
      "\">".toList ++ c.toList ++ "</voice></speak>".toList := by
    simp only [voiceDoc, strCat_toList]
  rw [hdoc]
  simp only [lexRun_append]
  rw [lexSeg_speakVoice []]
  rw [lexRun_attrVal_plain L.toList [.startTag "speak" [] false] "voice" []
    "xml:lang" [] hLp]
  rw [show ("\">".toList) = ['"', '>'] from rfl]
  rw [lexQuoteGt [.startTag "speak" [] false] "voice" [] "xml:lang"
    (L.toList.reverse ++ []) rfl]
  rw [hLrev]
  simp only [List.nil_append]
  rw [lexRun_text_plain c.toList
    [.startTag "voice" [("xml:lang", L)] false, .startTag "speak" [] false]
    [] hcp]
  simp only [List.append_nil]
  rw [lexSeg_closeVoiceOpenVoice
    [.startTag "voice" [("xml:lang", L)] false, .startTag "speak" [] false]
    c.toList.reverse]
  rw [lexRun_attrVal_plain L.toList
    (.endTag "voice" :: flushText c.toList.reverse
      [.startTag "voice" [("xml:lang", L)] false, .startTag "speak" [] false])
    "voice" [] "xml:lang" [] hLp]
  rw [lexQuoteGt
    (.endTag "voice" :: flushText c.toList.reverse
      [.startTag "voice" [("xml:lang", L)] false, .startTag "speak" [] false])
    "voice" [] "xml:lang" (L.toList.reverse ++ []) rfl]
  rw [hLrev]
  simp only [List.nil_append]
  rw [lexRun_text_plain c.toList
    (.startTag "voice" [("xml:lang", L)] false :: .endTag "voice" ::
      flushText c.toList.reverse
        [.startTag "voice" [("xml:lang", L)] false, .startTag "speak" [] false])
    [] hcp]
  simp only [List.append_nil]
  rw [lexSeg_closeVoiceCloseSpeak
    (.startTag "voice" [("xml:lang", L)] false :: .endTag "voice" ::
      flushText c.toList.reverse
        [.startTag "voice" [("xml:lang", L)] false, .startTag "speak" [] false])
    c.toList.reverse]

/-- C7.  Decoding a document whose root holds two structurally identical
consecutive `voice` elements — same `xml:lang` value, same (escape-inert)
character content — succeeds and yields exactly one `LangChangeCommand`: the
second element's command is value-equal to the most recent prior command of
the same type, so the dedup rules suppress it. -/
theorem c7_voice_dedup (mc : Bool) (L c : String)
    (hL : plainStr L = true) (hc : plainStr c = true) :
    ∃ ss, convertFromXml mc (voiceDoc L c) = .ok ss ∧
      ss.countP isLangChange = 1 := by
  have htoks : lexAll (voiceDoc L c) = .ok
      ((.endTag "speak" :: .endTag "voice" ::
        flushText c.toList.reverse
          (.startTag "voice" [("xml:lang", L)] false :: .endTag "voice" ::
            flushText c.toList.reverse
              [.startTag "voice" [("xml:lang", L)] false,
               .startTag "speak" [] false])).reverse) := by
    show lexFinish (lexRun lexInit (voiceDoc L c).toList) = _
    rw [show lexInit = (⟨[], .text []⟩ : LexSt) from rfl,
        lex_voiceDoc L c (plainStr_mem hL) (plainStr_mem hc)]
    rfl
  by_cases hce : c = ""
  · subst hce
    refine ⟨[SpeechItem.langChange (some (toNvdaLang L))], ?_, rfl⟩
    have htoks2 : lexAll (voiceDoc L "") = .ok
        [.startTag "speak" [] false, .startTag "voice" [("xml:lang", L)] false,
         .endTag "voice", .startTag "voice" [("xml:lang", L)] false,
         .endTag "voice", .endTag "speak"] := by
      rw [htoks]
      rfl
    have hpipe : xmlPipeline mc (voiceDoc L "") =
        .ok [SpeechItem.langChange (some (toNvdaLang L))] := by
      unfold xmlPipeline
      rw [htoks2]
      rfl
    unfold convertFromXml
    rw [hpipe]
  · refine ⟨[SpeechItem.langChange (some (toNvdaLang L)), .text c, .text c],
      ?_, rfl⟩
    have htoks2 : lexAll (voiceDoc L c) = .ok
        [.startTag "speak" [] false, .startTag "voice" [("xml:lang", L)] false,
         .text c, .endTag "voice", .startTag "voice" [("xml:lang", L)] false,
         .text c, .endTag "voice", .endTag "speak"] := by
      rw [htoks, flushText_of_ne hce, flushText_of_ne hce]
      rfl
    have hbuild : buildEvents
        [.startTag "speak" [] false, .startTag "voice" [("xml:lang", L)] false,
         .text c, .endTag "voice", .startTag "voice" [("xml:lang", L)] false,
         .text c, .endTag "voice", .endTag "speak"] = .ok
        [.start "speak" [], .start "voice" [("xml:lang", L)], .chars c,
         .stop "voice", .start "voice" [("xml:lang", L)], .chars c,
         .stop "voice", .stop "speak"] := rfl
    have hdp : dedupPush
        [SpeechItem.text c, SpeechItem.langChange (some (toNvdaLang L))]
        (SpeechItem.langChange (some (toNvdaLang L))) =
        [SpeechItem.text c, SpeechItem.langChange (some (toNvdaLang L))] := by
      show (if SpeechItem.langChange (some (toNvdaLang L)) =
          SpeechItem.langChange (some (toNvdaLang L)) then
          [SpeechItem.text c, SpeechItem.langChange (some (toNvdaLang L))]
        else SpeechItem.langChange (some (toNvdaLang L)) ::
          [SpeechItem.text c, SpeechItem.langChange (some (toNvdaLang L))]) =
        [SpeechItem.text c, SpeechItem.langChange (some (toNvdaLang L))]
      rw [if_pos rfl]
    have h5 : handleEvent mc
        ⟨[SpeechItem.text c, SpeechItem.langChange (some (toNvdaLang L))], []⟩
        (.start "voice" [("xml:lang", L)]) = .ok
        ⟨[SpeechItem.text c, SpeechItem.langChange (some (toNvdaLang L))],
         []⟩ := by
      show Except.ok (⟨dedupPush
        [SpeechItem.text c, SpeechItem.langChange (some (toNvdaLang L))]
        (SpeechItem.langChange (some (toNvdaLang L))), []⟩ : PState) = _
      rw [hdp]
    have hfold : ([.start "speak" [], .start "voice" [("xml:lang", L)],
        .chars c, .stop "voice", .start "voice" [("xml:lang", L)], .chars c,
        .stop "voice", .stop "speak"] : List XEvent).foldlM
        (handleEvent mc) ⟨[], []⟩ = .ok
        ⟨[SpeechItem.text c, SpeechItem.text c,
          SpeechItem.langChange (some (toNvdaLang L))], []⟩ := by
      simp only [List.foldlM_cons, List.foldlM_nil, exBind_ok, exPure,
        show handleEvent mc ⟨[], []⟩ (.start "speak" []) = .ok ⟨[], []⟩
          from rfl,
        show handleEvent mc ⟨[], []⟩ (.start "voice" [("xml:lang", L)]) =
          .ok ⟨[SpeechItem.langChange (some (toNvdaLang L))], []⟩ from rfl,
        show handleEvent mc
          ⟨[SpeechItem.langChange (some (toNvdaLang L))], []⟩ (.chars c) =
          .ok ⟨[SpeechItem.text c,
            SpeechItem.langChange (some (toNvdaLang L))], []⟩ from rfl,
        show handleEvent mc ⟨[SpeechItem.text c,
          SpeechItem.langChange (some (toNvdaLang L))], []⟩ (.stop "voice") =
          .ok ⟨[SpeechItem.text c,
            SpeechItem.langChange (some (toNvdaLang L))], []⟩ from rfl,
        h5,
        show handleEvent mc ⟨[SpeechItem.text c,
          SpeechItem.langChange (some (toNvdaLang L))], []⟩ (.chars c) =
          .ok ⟨[SpeechItem.text c, SpeechItem.text c,
            SpeechItem.langChange (some (toNvdaLang L))], []⟩ from rfl,
        show handleEvent mc ⟨[SpeechItem.text c, SpeechItem.text c,
          SpeechItem.langChange (some (toNvdaLang L))], []⟩ (.stop "voice") =
          .ok ⟨[SpeechItem.text c, SpeechItem.text c,
            SpeechItem.langChange (some (toNvdaLang L))], []⟩ from rfl,
        show handleEvent mc ⟨[SpeechItem.text c, SpeechItem.text c,
          SpeechItem.langChange (some (toNvdaLang L))], []⟩ (.stop "speak") =
          .ok ⟨[SpeechItem.text c, SpeechItem.text c,
            SpeechItem.langChange (some (toNvdaLang L))], []⟩ from rfl]
    have hpipe : xmlPipeline mc (voiceDoc L c) =
        .ok [SpeechItem.langChange (some (toNvdaLang L)), .text c, .text c] := by
      unfold xmlPipeline
      rw [htoks2]
      show (match buildEvents
          [.startTag "speak" [] false,
           .startTag "voice" [("xml:lang", L)] false, .text c,
           .endTag "voice", .startTag "voice" [("xml:lang", L)] false,
           .text c, .endTag "voice", .endTag "speak"] with
        | .error e => (.error e : Except String (List SpeechItem))
        | .ok evs =>
          match evs.foldlM (handleEvent mc) ⟨[], []⟩ with
          | .error e => .error e
          | .ok st => .ok st.rseq.reverse) = _
      rw [hbuild]
      show (match ([.start "speak" [], .start "voice" [("xml:lang", L)],
          .chars c, .stop "voice", .start "voice" [("xml:lang", L)],
          .chars c, .stop "voice", .stop "speak"] : List XEvent).foldlM
          (handleEvent mc) (⟨[], []⟩ : PState) with
        | .error e => (.error e : Except String (List SpeechItem))
        | .ok st => .ok st.rseq.reverse) = _
      rw [hfold]
      rfl
    unfold convertFromXml
    rw [hpipe]

/-- C7 witness. -/
theorem c7_voice_witness :
    plainStr "fr" = true ∧ plainStr "hi" = true ∧
    (∃ ss, convertFromXml false (voiceDoc "fr" "hi") = .ok ss ∧
      ss.countP isLangChange = 1) :=
  ⟨by decide, by decide, c7_voice_dedup false "fr" "hi" (by decide) (by decide)⟩

/-- The translator on a round-trip-class sequence: one command per item. -/
theorem aux_c2 (dl : String) : ∀ ss : List SpeechItem,
    ss.all roundTripItem = true →
    (generateBalancerCommandsAux (ssmlConvertCommand dl) ss).1 =
      ss.map c2Cmd := by
  intro ss
  induction ss with
  | nil => intro _; rfl
  | cons i rest ih =>
    intro h
    rw [List.all_cons, Bool.and_eq_true] at h
    cases i with
    | text s =>
      rw [aux_cons_text]
      show BCmd.text s ::
        (generateBalancerCommandsAux (ssmlConvertCommand dl) rest).1 = _
      rw [ih h.2]
      rfl
    | brk n =>
      rw [aux_cons_some (ssmlConvertCommand dl) (.brk n) rest
        (.standAloneTag "break" [("time", natToStr n ++ "ms")] none)
        (fun s hs => SpeechItem.noConfusion hs) rfl]
      show BCmd.standAloneTag "break" [("time", natToStr n ++ "ms")] none ::
        (generateBalancerCommandsAux (ssmlConvertCommand dl) rest).1 = _
      rw [ih h.2]
      rfl
    | index n => exact Bool.noConfusion h.1
    | characterMode b => exact Bool.noConfusion h.1
    | langChange l => exact Bool.noConfusion h.1
    | pitch m => exact Bool.noConfusion h.1
    | rate m => exact Bool.noConfusion h.1
    | volume m => exact Bool.noConfusion h.1
    | phoneme ip fb => exact Bool.noConfusion h.1
    | callback n => exact Bool.noConfusion h.1
    | other n => exact Bool.noConfusion h.1

/-- The balancer is inert on round-trip-class commands: no tag state, the
output tokens just accumulate. -/
theorem balRun_c2 : ∀ (ss : List SpeechItem) (out : List Token),
    ss.all roundTripItem = true →
    balRun ⟨out, ["speak"], false, [], [], none⟩ (ss.map c2Cmd) =
      ⟨out ++ ss.map c2Tok, ["speak"], false, [], [], none⟩ := by
  intro ss
  induction ss with
  | nil => intro out _; simp [balRun]
  | cons i rest ih =>
    intro out h
    rw [List.all_cons, Bool.and_eq_true] at h
    cases i with
    | text s =>
      show balRun (balStep ⟨out, ["speak"], false, [], [], none⟩ (.text s))
        (rest.map c2Cmd) = _
      have hstep : balStep ⟨out, ["speak"], false, [], [], none⟩ (.text s) =
          ⟨out ++ [.textT s], ["speak"], false, [], [], none⟩ := rfl
      rw [hstep, ih (out ++ [Token.textT s]) h.2]
      simp [c2Tok]
    | brk n =>
      show balRun (balStep ⟨out, ["speak"], false, [], [], none⟩
        (.standAloneTag "break" [("time", natToStr n ++ "ms")] none))
        (rest.map c2Cmd) = _
      have hstep : balStep ⟨out, ["speak"], false, [], [], none⟩
          (.standAloneTag "break" [("time", natToStr n ++ "ms")] none) =
          ⟨out ++ [.emptyT "break" [("time", natToStr n ++ "ms")]],
           ["speak"], false, [], [], none⟩ := rfl
      rw [hstep, ih (out ++ [Token.emptyT "break" [("time", natToStr n ++ "ms")]])
        h.2]
      simp [c2Tok]
    | index n => exact Bool.noConfusion h.1
    | characterMode b => exact Bool.noConfusion h.1
    | langChange l => exact Bool.noConfusion h.1
    | pitch m => exact Bool.noConfusion h.1
    | rate m => exact Bool.noConfusion h.1
    | volume m => exact Bool.noConfusion h.1
    | phoneme ip fb => exact Bool.noConfusion h.1
    | callback n => exact Bool.noConfusion h.1
    | other n => exact Bool.noConfusion h.1

/-- The full token output for a round-trip-class sequence. -/
theorem genTokens_c2 (dl : String) (ss : List SpeechItem)
    (h : ss.all roundTripItem = true) :
    genTokens (ssmlBalancerCommands dl ss).1 =
      .openT "speak" (speakAttrs dl) :: (ss.map c2Tok ++ [.closeT "speak"]) := by
  have hcmds : (ssmlBalancerCommands dl ss).1 =
      .encloseAll "speak" (speakAttrs dl) :: ss.map c2Cmd := by
    show BCmd.encloseAll "speak" (speakAttrs dl) ::
      (generateBalancerCommandsAux (ssmlConvertCommand dl) ss).1 = _
    rw [aux_c2 dl ss h]
  have hrun : balRun initB
      (.encloseAll "speak" (speakAttrs dl) :: ss.map c2Cmd) =
      ⟨.openT "speak" (speakAttrs dl) :: ss.map c2Tok,
       ["speak"], false, [], [], none⟩ := by
    show balRun (balStep initB (.encloseAll "speak" (speakAttrs dl)))
      (ss.map c2Cmd) = _
    have hstep : balStep initB (.encloseAll "speak" (speakAttrs dl)) =
        ⟨[.openT "speak" (speakAttrs dl)], ["speak"], false, [], [], none⟩ :=
      rfl
    rw [hstep, balRun_c2 ss [.openT "speak" (speakAttrs dl)] h]
    rfl
  show (balRun initB (ssmlBalancerCommands dl ss).1).out ++
    (balRun initB (ssmlBalancerCommands dl ss).1).openTags.reverse.map .closeT
    ++ (balRun initB (ssmlBalancerCommands dl ss).1).enclosingAllTags.map
      .closeT = _
  rw [hcmds, hrun]
  simp

/-- The rendered markup for a round-trip-class sequence. -/
theorem convertToXml_c2 (dl : String) (ss : List SpeechItem)
    (h : ss.all roundTripItem = true) :
    ssmlConvertToXml dl ss =
      ⟨tokenChars (.openT "speak" (speakAttrs (toXmlLang dl))) ++
        (c2BodyChars ss ++ "</speak>".toList)⟩ := by
  show generateXml (ssmlBalancerCommands (toXmlLang dl) ss).1 = _
  unfold generateXml
  rw [genTokens_c2 (toXmlLang dl) ss h]
  congr 1
  rw [show ("</speak>".toList) = tokenChars (.closeT "speak") from rfl]
  simp [c2BodyChars, List.flatMap_cons, List.flatMap_append]

/-- The rendered break time value is plain. -/
theorem plain_break_value (n : ℕ) :
    ∀ x ∈ (natToStr n ++ "ms").toList, plainChar x = true := by
  have htl : (natToStr n ++ "ms").toList = natChars n ++ ['m', 's'] := by
    rw [strCat_toList]
    rfl
  rw [htl]
  intro x hx
  rcases List.mem_append.mp hx with hx | hx
  · exact (natChars_spec n x hx).2
  · rcases List.mem_cons.mp hx with rfl | hx
    · decide
    · rcases List.mem_cons.mp hx with rfl | hx
      · decide
      · exact absurd hx (List.not_mem_nil x)

/-- Lexing one rendered break tag from pending character data. -/
theorem lexBreakPiece (toks : List XTok) (acc : List Char) (n : ℕ) :
    lexRun ⟨toks, .text acc⟩
      (tokenChars (.emptyT "break" [("time", natToStr n ++ "ms")])) =
      ⟨.startTag "break" [("time", natToStr n ++ "ms")] true ::
        flushText acc toks, .text []⟩ := by
  have hplain := plain_break_value n
  have hesc : escapeChars (natToStr n ++ "ms").toList =
      (natToStr n ++ "ms").toList := escapeChars_plain _ hplain
  have hdata : (natToStr n ++ "ms").toList = (natToStr n).data ++ ['m', 's'] := by
    rw [strCat_toList]
    rfl
  have hesc2 : escapeChars ((natToStr n).data ++ ['m', 's']) =
      (natToStr n).data ++ ['m', 's'] := by
    rw [← hdata]
    exact hesc
  have hch : tokenChars (.emptyT "break" [("time", natToStr n ++ "ms")]) =
      "<break time=\"".toList ++
        ((natToStr n ++ "ms").toList ++ "\"/>".toList) := by
    simp [tokenChars, attrChars, hesc2, hdata]
  rw [hch, lexRun_append, lexRun_append, lexSeg_breakFront toks acc,
      lexRun_attrVal_plain (natToStr n ++ "ms").toList (flushText acc toks)
        "break" [] "time" [] hplain,
      show ("\"/>".toList) = ['"', '/', '>'] from rfl,
      lexQuoteSlashGt (flushText acc toks) "break" [] "time"
        ((natToStr n ++ "ms").toList.reverse ++ []) rfl]
  rw [List.append_nil, List.reverse_reverse, str_eta]
  simp

/-- Lexing the rendered body of a round-trip-class sequence followed by the
closing root tag. -/
theorem lexBody_c2 : ∀ (N : ℕ) (ss : List SpeechItem) (toks : List XTok),
    ss.length ≤ N → ss.all roundTripItem = true →
    noAdjacentTexts ss = true →
    lexRun ⟨toks, .text []⟩ (c2BodyChars ss ++ "</speak>".toList) =
      ⟨.endTag "speak" :: ((ss.flatMap c2Toks).reverse ++ toks),
       .text []⟩ := by
  intro N
  induction N with
  | zero =>
    intro ss toks hlen _ _
    cases ss with
    | nil =>
      rw [show c2BodyChars [] = [] from rfl, List.nil_append,
          lexSeg_closeSpeak toks []]
      rfl
    | cons i rest => simp at hlen
  | succ N ih =>
    intro ss toks hlen h1 h2
    cases ss with
    | nil =>
      rw [show c2BodyChars [] = [] from rfl, List.nil_append,
          lexSeg_closeSpeak toks []]
      rfl
    | cons i rest =>
      rw [List.all_cons, Bool.and_eq_true] at h1
      simp only [List.length_cons] at hlen
      cases i with
      | brk n =>
        have hbc : c2BodyChars (SpeechItem.brk n :: rest) =
            tokenChars (.emptyT "break" [("time", natToStr n ++ "ms")]) ++
              c2BodyChars rest := rfl
        rw [hbc, List.append_assoc, lexRun_append, lexBreakPiece toks [] n,
            show flushText ([] : List Char) toks = toks from rfl,
            ih rest _ (by omega) h1.2 h2]
        simp [c2Toks]
      | text s =>
        have hs := h1.1
        rw [show roundTripItem (SpeechItem.text s) =
          ((s != "") && plainStr s) from rfl, Bool.and_eq_true] at hs
        have hne : s ≠ "" := by simpa using hs.1
        have hplain : plainStr s = true := hs.2
        have hbc : c2BodyChars (SpeechItem.text s :: rest) =
            s.toList ++ c2BodyChars rest := by
          show escapeChars s.toList ++ c2BodyChars rest = _
          rw [escapeChars_plain s.toList (plainStr_mem hplain)]
        rw [hbc, List.append_assoc, lexRun_append,
            lexRun_text_plain s.toList toks [] (plainStr_mem hplain),
            List.append_nil]
        cases rest with
        | nil =>
          rw [show c2BodyChars [] = [] from rfl, List.nil_append,
              lexSeg_closeSpeak toks s.toList.reverse, flushText_of_ne hne]
          simp [c2Toks]
        | cons j rest' =>
          cases j with
          | text s2 => exact Bool.noConfusion h2
          | brk m =>
            rw [List.all_cons, Bool.and_eq_true] at h1
            have hbc2 : c2BodyChars (SpeechItem.brk m :: rest') =
                tokenChars (.emptyT "break"
                  [("time", natToStr m ++ "ms")]) ++ c2BodyChars rest' := rfl
            rw [hbc2, List.append_assoc, lexRun_append,
                lexBreakPiece toks s.toList.reverse m, flushText_of_ne hne,
                ih rest' _ (by simp only [List.length_cons] at hlen; omega)
                  h1.2.2 h2]
            simp [c2Toks]
          | index k => exact Bool.noConfusion h1.2
          | characterMode b => exact Bool.noConfusion h1.2
          | langChange l => exact Bool.noConfusion h1.2
          | pitch m => exact Bool.noConfusion h1.2
          | rate m => exact Bool.noConfusion h1.2
          | volume m => exact Bool.noConfusion h1.2
          | phoneme ip fb => exact Bool.noConfusion h1.2
          | callback k => exact Bool.noConfusion h1.2
          | other k => exact Bool.noConfusion h1.2
      | index n => exact Bool.noConfusion h1.1
      | characterMode b => exact Bool.noConfusion h1.1
      | langChange l => exact Bool.noConfusion h1.1
      | pitch m => exact Bool.noConfusion h1.1
      | rate m => exact Bool.noConfusion h1.1
      | volume m => exact Bool.noConfusion h1.1
      | phoneme ip fb => exact Bool.noConfusion h1.1
      | callback n => exact Bool.noConfusion h1.1
      | other n => exact Bool.noConfusion h1.1

/-- The document grammar on a round-trip-class token body. -/
theorem buildEvents_c2 : ∀ ss : List SpeechItem,
    buildEventsGo ["speak"] false (ss.flatMap c2Toks ++ [.endTag "speak"]) =
      .ok (ss.flatMap c2Events ++ [.stop "speak"]) := by
  intro ss
  induction ss with
  | nil => rfl
  | cons i rest ih =>
    cases i with
    | text s =>
      show (match buildEventsGo ["speak"] false
          (rest.flatMap c2Toks ++ [XTok.endTag "speak"]) with
        | .error e => (.error e : Except String (List XEvent))
        | .ok evs => .ok (.chars s :: evs)) = _
      rw [ih]
      rfl
    | brk n =>
      show (match buildEventsGo ["speak"] false
          (rest.flatMap c2Toks ++ [XTok.endTag "speak"]) with
        | .error e => (.error e : Except String (List XEvent))
        | .ok evs => .ok (.start "break" [("time", natToStr n ++ "ms")] ::
            .stop "break" :: evs)) = _
      rw [ih]
      rfl
    | index n =>
      show buildEventsGo ["speak"] false
        (rest.flatMap c2Toks ++ [XTok.endTag "speak"]) =
        .ok (rest.flatMap c2Events ++ [.stop "speak"])
      exact ih
    | characterMode b =>
      show buildEventsGo ["speak"] false
        (rest.flatMap c2Toks ++ [XTok.endTag "speak"]) =
        .ok (rest.flatMap c2Events ++ [.stop "speak"])
      exact ih
    | langChange l =>
      show buildEventsGo ["speak"] false
        (rest.flatMap c2Toks ++ [XTok.endTag "speak"]) =
        .ok (rest.flatMap c2Events ++ [.stop "speak"])
      exact ih
    | pitch m =>
      show buildEventsGo ["speak"] false
        (rest.flatMap c2Toks ++ [XTok.endTag "speak"]) =
        .ok (rest.flatMap c2Events ++ [.stop "speak"])
      exact ih
    | rate m =>
      show buildEventsGo ["speak"] false
        (rest.flatMap c2Toks ++ [XTok.endTag "speak"]) =
        .ok (rest.flatMap c2Events ++ [.stop "speak"])
      exact ih
    | volume m =>
      show buildEventsGo ["speak"] false
        (rest.flatMap c2Toks ++ [XTok.endTag "speak"]) =
        .ok (rest.flatMap c2Events ++ [.stop "speak"])
      exact ih
    | phoneme ip fb =>
      show buildEventsGo ["speak"] false
        (rest.flatMap c2Toks ++ [XTok.endTag "speak"]) =
        .ok (rest.flatMap c2Events ++ [.stop "speak"])
      exact ih
    | callback n =>
      show buildEventsGo ["speak"] false
        (rest.flatMap c2Toks ++ [XTok.endTag "speak"]) =
        .ok (rest.flatMap c2Events ++ [.stop "speak"])
      exact ih
    | other n =>
      show buildEventsGo ["speak"] false
        (rest.flatMap c2Toks ++ [XTok.endTag "speak"]) =
        .ok (rest.flatMap c2Events ++ [.stop "speak"])
      exact ih

/-- The handler fold over round-trip-class events equals the dedup fold over
the items, with an untouched prosody cache. -/
theorem handlerFold_c2 (mc : Bool) : ∀ (ss rseq : List SpeechItem),
    ss.all roundTripItem = true →
    ((ss.flatMap c2Events ++ [XEvent.stop "speak"]).foldlM
      (handleEvent mc) (⟨rseq, []⟩ : PState)) =
      .ok ⟨ss.foldl dedupStep rseq, []⟩ := by
  intro ss
  induction ss with
  | nil => intro rseq _; rfl
  | cons i rest ih =>
    intro rseq h
    rw [List.all_cons, Bool.and_eq_true] at h
    cases i with
    | text s =>
      show ((XEvent.chars s ::
        (rest.flatMap c2Events ++ [XEvent.stop "speak"])).foldlM
        (handleEvent mc) (⟨rseq, []⟩ : PState)) = _
      rw [show ((XEvent.chars s ::
          (rest.flatMap c2Events ++ [XEvent.stop "speak"])).foldlM
          (handleEvent mc) (⟨rseq, []⟩ : PState)) =
        ((rest.flatMap c2Events ++ [XEvent.stop "speak"]).foldlM
          (handleEvent mc) (⟨SpeechItem.text s :: rseq, []⟩ : PState))
        from rfl]
      rw [ih (SpeechItem.text s :: rseq) h.2]
      rfl
    | brk n =>
      have hpb : parseBreak (some [("time", natToStr n ++ "ms")]) =
          [SpeechItem.brk n] := by
        show (match parseTimeMs (natToStr n ++ "ms") with
          | none => ([] : List SpeechItem)
          | some t => [.brk t]) = [SpeechItem.brk n]
        rw [parseTimeMs_natToStr]
      have hstart : handleEvent mc ⟨rseq, []⟩
          (.start "break" [("time", natToStr n ++ "ms")]) =
          .ok ⟨dedupPush rseq (.brk n), []⟩ := by
        show (match runHandler mc [] "break"
            (some [("time", natToStr n ++ "ms")]) with
          | .error e => (.error e : Except String PState)
          | .ok (cmds, cache') => .ok ⟨cmds.foldl dedupPush rseq, cache'⟩) = _
        rw [show runHandler mc [] "break"
            (some [("time", natToStr n ++ "ms")]) =
          .ok (parseBreak (some [("time", natToStr n ++ "ms")]), []) from rfl,
          hpb]
        rfl
      show ((XEvent.start "break" [("time", natToStr n ++ "ms")] ::
        XEvent.stop "break" ::
        (rest.flatMap c2Events ++ [XEvent.stop "speak"])).foldlM
        (handleEvent mc) (⟨rseq, []⟩ : PState)) = _
      simp only [List.foldlM_cons, hstart, exBind_ok,
        show handleEvent mc ⟨dedupPush rseq (SpeechItem.brk n), []⟩
          (.stop "break") = .ok ⟨dedupPush rseq (SpeechItem.brk n), []⟩
          from rfl]
      rw [ih (dedupPush rseq (SpeechItem.brk n)) h.2]
      rfl
    | index n => exact Bool.noConfusion h.1
    | characterMode b => exact Bool.noConfusion h.1
    | langChange l => exact Bool.noConfusion h.1
    | pitch m => exact Bool.noConfusion h.1
    | rate m => exact Bool.noConfusion h.1
    | volume m => exact Bool.noConfusion h.1
    | phoneme ip fb => exact Bool.noConfusion h.1
    | callback n => exact Bool.noConfusion h.1
    | other n => exact Bool.noConfusion h.1

/-- The rendered root start tag, as flat characters. -/
theorem speakOpen_chars (d : String)
    (hd : ∀ x ∈ d.toList, plainChar x = true) :
    tokenChars (.openT "speak" (speakAttrs d)) =
      "<speak version=\"1.0\" xmlns=\"http://www.w3.org/2001/10/synthesis\" xml:lang=\"".toList
        ++ (d.toList ++ "\">".toList) := by
  have hesc : escapeChars d.data = d.data := escapeChars_plain _ hd
  have h10 : escapeChars ['1', '.', '0'] = ['1', '.', '0'] := by decide
  have hurl : escapeChars
      ['h', 't', 't', 'p', ':', '/', '/', 'w', 'w', 'w', '.', 'w', '3', '.',
       'o', 'r', 'g', '/', '2', '0', '0', '1', '/', '1', '0', '/', 's', 'y',
       'n', 't', 'h', 'e', 's', 'i', 's'] =
      ['h', 't', 't', 'p', ':', '/', '/', 'w', 'w', 'w', '.', 'w', '3', '.',
       'o', 'r', 'g', '/', '2', '0', '0', '1', '/', '1', '0', '/', 's', 'y',
       'n', 't', 'h', 'e', 's', 'i', 's'] := by decide
  simp [tokenChars, speakAttrs, attrChars, hesc, h10, hurl]

/-- Lexing the rendered root start tag. -/
theorem lexFront_c2 (d : String)
    (hd : ∀ x ∈ d.toList, plainChar x = true) :
    lexRun ⟨[], .text []⟩ (tokenChars (.openT "speak" (speakAttrs d))) =
      ⟨[.startTag "speak" (speakAttrs d) false], .text []⟩ := by
  rw [speakOpen_chars d hd, lexRun_append, lexRun_append,
      lexSeg_speakAttrsFront [],
      lexRun_attrVal_plain d.toList [] "speak"
        [("version", "1.0"), ("xmlns", "http://www.w3.org/2001/10/synthesis")]
        "xml:lang" [] hd,
      show ("\">".toList) = ['"', '>'] from rfl,
      lexQuoteGt [] "speak"
        [("version", "1.0"), ("xmlns", "http://www.w3.org/2001/10/synthesis")]
        "xml:lang" (d.toList.reverse ++ []) rfl]
  rw [List.append_nil, List.reverse_reverse, str_eta]
  rfl

/-- C2, corrected.  For a sequence of `BreakCommand`s and nonempty
escape-inert text fragments with no two texts adjacent, decoding the encoded
markup yields exactly the original sequence with the dedup rules applied; and
whenever the dedup rules fix the sequence, re-encoding the decoded sequence
reproduces the original markup (encode∘decode∘encode stability on dedup
fixpoints). -/
theorem c2_roundtrip_amended (mc : Bool) (dl : String) (ss : List SpeechItem)
    (hdl : plainStr dl = true) (h1 : ss.all roundTripItem = true)
    (h2 : noAdjacentTexts ss = true) :
    convertFromXml mc (ssmlConvertToXml dl ss) = .ok (dedupApply ss) ∧
    (dedupApply ss = ss →
      ∀ ss', convertFromXml mc (ssmlConvertToXml dl ss) = .ok ss' →
        ssmlConvertToXml dl ss' = ssmlConvertToXml dl ss) := by
  have hdl' : plainStr (toXmlLang dl) = true := plainStr_toXmlLang hdl
  have hmem := plainStr_mem hdl'
  have hdoc : (ssmlConvertToXml dl ss).toList =
      tokenChars (.openT "speak" (speakAttrs (toXmlLang dl))) ++
        (c2BodyChars ss ++ "</speak>".toList) := by
    rw [convertToXml_c2 dl ss h1]
    rfl
  have hlex : lexRun ⟨[], .text []⟩ (ssmlConvertToXml dl ss).toList =
      ⟨.endTag "speak" :: ((ss.flatMap c2Toks).reverse ++
        [.startTag "speak" (speakAttrs (toXmlLang dl)) false]),
       .text []⟩ := by
    rw [hdoc, lexRun_append, lexFront_c2 (toXmlLang dl) hmem,
        lexBody_c2 ss.length ss
          [.startTag "speak" (speakAttrs (toXmlLang dl)) false]
          (le_refl ss.length) h1 h2]
  have htoks : lexAll (ssmlConvertToXml dl ss) = .ok
      (.startTag "speak" (speakAttrs (toXmlLang dl)) false ::
        (ss.flatMap c2Toks ++ [.endTag "speak"])) := by
    show lexFinish (lexRun lexInit (ssmlConvertToXml dl ss).toList) = _
    rw [show lexInit = (⟨[], .text []⟩ : LexSt) from rfl, hlex]
    show Except.ok ((XTok.endTag "speak" :: ((ss.flatMap c2Toks).reverse ++
      [.startTag "speak" (speakAttrs (toXmlLang dl)) false])).reverse) = _
    simp
  have hfold := handlerFold_c2 mc ss [] h1
  have hpipe : xmlPipeline mc (ssmlConvertToXml dl ss) =
      .ok (dedupApply ss) := by
    unfold xmlPipeline
    rw [htoks]
    show (match buildEvents (XTok.startTag "speak"
        (speakAttrs (toXmlLang dl)) false ::
        (ss.flatMap c2Toks ++ [XTok.endTag "speak"])) with
      | .error e => (.error e : Except String (List SpeechItem))
      | .ok evs =>
        match evs.foldlM (handleEvent mc) (⟨[], []⟩ : PState) with
        | .error e => .error e
        | .ok st => .ok st.rseq.reverse) = _
    have hbuild2 : buildEvents (XTok.startTag "speak"
        (speakAttrs (toXmlLang dl)) false ::
        (ss.flatMap c2Toks ++ [XTok.endTag "speak"])) = .ok
        (.start "speak" (speakAttrs (toXmlLang dl)) ::
          (ss.flatMap c2Events ++ [.stop "speak"])) := by
      show (match buildEventsGo ["speak"] false
          (ss.flatMap c2Toks ++ [XTok.endTag "speak"]) with
        | .error e => (.error e : Except String (List XEvent))
        | .ok evs => .ok (.start "speak" (speakAttrs (toXmlLang dl)) ::
            evs)) = _
      rw [buildEvents_c2 ss]
    rw [hbuild2]
    show (match (XEvent.start "speak" (speakAttrs (toXmlLang dl)) ::
        (ss.flatMap c2Events ++ [XEvent.stop "speak"])).foldlM
        (handleEvent mc) (⟨[], []⟩ : PState) with
      | .error e => (.error e : Except String (List SpeechItem))
      | .ok st => .ok st.rseq.reverse) = _
    rw [show ((XEvent.start "speak" (speakAttrs (toXmlLang dl)) ::
        (ss.flatMap c2Events ++ [XEvent.stop "speak"])).foldlM
        (handleEvent mc) (⟨[], []⟩ : PState)) =
      ((ss.flatMap c2Events ++ [XEvent.stop "speak"]).foldlM
        (handleEvent mc) (⟨[], []⟩ : PState)) from rfl]
    rw [hfold]
    show Except.ok ((ss.foldl dedupStep []).reverse) = .ok (dedupApply ss)
    rfl
  have hmain : convertFromXml mc (ssmlConvertToXml dl ss) =
      .ok (dedupApply ss) := by
    unfold convertFromXml
    rw [hpipe]
  refine ⟨hmain, fun hfix ss' h' => ?_⟩
  rw [hmain] at h'
  injection h' with h''
  rw [← h'', hfix]

set_option maxRecDepth 32768 in
/-- C2 counterexample: an `IndexCommand` is in the claim's class, encodes to
a `mark` element, but decodes to nothing (without a mark callback), so the
decoded sequence differs from the dedup-applied original and the re-encoded
markup differs from the first encode. -/
theorem c2_index_counterexample :
    convertFromXml false (ssmlConvertToXml "en" [SpeechItem.index 1]) =
      .ok ([] : List SpeechItem) ∧
    dedupApply [SpeechItem.index 1] = [SpeechItem.index 1] ∧
    ssmlConvertToXml "en" ([] : List SpeechItem) ≠
      ssmlConvertToXml "en" [SpeechItem.index 1] := by
  refine ⟨rfl, rfl, ?_⟩
  decide

/-- C2 witness. -/
theorem c2_roundtrip_witness :
    plainStr "en" = true ∧
    ([SpeechItem.brk 5, SpeechItem.text "hi",
      SpeechItem.brk 5].all roundTripItem = true) ∧
    noAdjacentTexts [SpeechItem.brk 5, SpeechItem.text "hi",
      SpeechItem.brk 5] = true ∧
    convertFromXml false (ssmlConvertToXml "en"
      [SpeechItem.brk 5, SpeechItem.text "hi", SpeechItem.brk 5]) =
      .ok (dedupApply [SpeechItem.brk 5, SpeechItem.text "hi",
        SpeechItem.brk 5]) :=
  ⟨by decide, by decide, by decide,
   (c2_roundtrip_amended false "en"
     [SpeechItem.brk 5, SpeechItem.text "hi", SpeechItem.brk 5]
     (by decide) (by decide) (by decide)).1⟩

end SpeechXml
